import Mathlib

/-!
Verification of the PS1-Oracle minimal implementation
(`minimal_implementation/run_narrative.py`, `interpret.py`, `interpret_llm.py`).

The Python pipeline is shallowly embedded: the relation graph, lexicon
tables and passage corpus (JSON data loaded at start-up) become explicit
parameters; the recursive requires-closure, which Python runs on the call
stack without a cycle guard, becomes a fuel-indexed function returning
`Option` (`none` models an out-of-fuel / diverging run); Python `set`s
become lists whose iteration order is quantified over where it matters.
-/

namespace PS1

/-! ## Requires-closure (run_narrative.py `requires_of`, `expand_with_requires`;
interpret.py `topo_require_chain`) -/

/-- The relation graph `relations.json`: symbol -> requires-list.
Mirrors `REL.get(tok, {}).get("requires", []) or []`. -/
def requiresOf (rel : List (String × List String)) (w : String) : List String :=
  match rel.find? (fun p => p.1 == w) with
  | some p => p.2
  | none => []

/-- State of the DFS of `expand_with_requires`: `(out, seen)`. -/
abbrev ExpSt := List String × List String

/-- `expand_with_requires` (run_narrative.py lines 54-61), fuel-indexed.
The Python inner `add` recurses on the requires of `w` before appending `w`;
`none` models running out of fuel (the Python code has no cycle guard and
diverges on a reachable `requires` cycle). -/
def expandGo (rel : List (String × List String)) :
    Nat → List String → ExpSt → Option ExpSt
  | 0, _, _ => none
  | _ + 1, [], st => some st
  | n + 1, w :: ws, st =>
    if w ∈ st.2 then expandGo rel n ws st
    else
      match expandGo rel n (requiresOf rel w) st with
      | none => none
      | some st2 => expandGo rel n ws (st2.1 ++ [w], w :: st2.2)

/-- `expand_with_requires(tokens)`: run the DFS from empty state, return `out`. -/
def expandWithRequires (rel : List (String × List String)) (fuel : Nat)
    (tokens : List String) : Option (List String) :=
  (expandGo rel fuel tokens ([], [])).map (fun st => st.1)

/-- `topo_require_chain` (interpret.py lines 39-55): identical DFS except that
it re-checks `w not in seen` before appending. -/
def topoGo (rel : List (String × List String)) :
    Nat → List String → ExpSt → Option ExpSt
  | 0, _, _ => none
  | _ + 1, [], st => some st
  | n + 1, w :: ws, st =>
    if w ∈ st.2 then topoGo rel n ws st
    else
      match topoGo rel n (requiresOf rel w) st with
      | none => none
      | some st2 =>
        topoGo rel n ws (if w ∈ st2.2 then st2 else (st2.1 ++ [w], w :: st2.2))

/-- `topo_require_chain(targets)`. -/
def topoRequireChain (rel : List (String × List String)) (fuel : Nat)
    (targets : List String) : Option (List String) :=
  (topoGo rel fuel targets ([], [])).map (fun st => st.1)

/-- `x` is `t` itself or a symbol transitively required by `t`. -/
inductive Reaches (rel : List (String × List String)) : String → String → Prop
  | refl (w : String) : Reaches rel w w
  | tail {a b c : String} : Reaches rel a b → c ∈ requiresOf rel b → Reaches rel a c

/-- The `requires` relation is acyclic: no symbol is transitively required
by one of its own requires (the spec's stated precondition for closure). -/
def Acyclic (rel : List (String × List String)) : Prop :=
  ∀ w r, r ∈ requiresOf rel w → ¬ Reaches rel r w

theorem Reaches.trans {rel : List (String × List String)} {a b c : String}
    (h1 : Reaches rel a b) (h2 : Reaches rel b c) : Reaches rel a c := by
  induction h2 with
  | refl => exact h1
  | tail _ hr ih => exact Reaches.tail ih hr

end PS1

namespace PS1

/-- Decompose an equation `out ++ [w₀] = l₁ ++ w :: l₂` of lists. -/
theorem split_append_singleton {α : Type} {out l₁ l₂ : List α} {w w₀ : α}
    (h : out ++ [w₀] = l₁ ++ w :: l₂) :
    (l₁ = out ∧ w = w₀ ∧ l₂ = []) ∨ ∃ t, out = l₁ ++ w :: t ∧ l₂ = t ++ [w₀] := by
  induction l₁ generalizing out with
  | nil =>
    cases out with
    | nil =>
      simp only [List.nil_append] at h
      injection h with ha hb
      exact Or.inl ⟨rfl, ha.symm, hb.symm⟩
    | cons o os =>
      simp only [List.cons_append, List.nil_append, List.cons.injEq] at h
      exact Or.inr ⟨os, by simp [h.1], h.2.symm⟩
  | cons a l₁ ih =>
    cases out with
    | nil =>
      simp only [List.nil_append, List.cons_append, List.cons.injEq] at h
      exact absurd (List.append_eq_nil.mp h.2.symm).2 (List.cons_ne_nil _ _)
    | cons o os =>
      simp only [List.cons_append, List.cons.injEq] at h
      rcases ih h.2 with ⟨h1, h2, h3⟩ | ⟨t, ht1, ht2⟩
      · exact Or.inl ⟨by simp [h.1, h1], h2, h3⟩
      · exact Or.inr ⟨t, by simp [h.1, ht1], ht2⟩

/-- Every element of the requires-list of a member precedes it in `out`. -/
def ReqOrdered (rel : List (String × List String)) (out : List String) : Prop :=
  ∀ l₁ w l₂, out = l₁ ++ w :: l₂ → ∀ r ∈ requiresOf rel w, r ∈ l₁

theorem reqOrdered_nil (rel : List (String × List String)) : ReqOrdered rel [] := by
  intro l₁ w l₂ heq
  exact absurd heq.symm (by simp)

theorem reqOrdered_append {rel : List (String × List String)} {l : List String}
    {w : String} (h1 : ReqOrdered rel l) (h2 : ∀ r ∈ requiresOf rel w, r ∈ l) :
    ReqOrdered rel (l ++ [w]) := by
  intro l₁ v l₂ heq r hr
  rcases split_append_singleton heq with ⟨rfl, rfl, rfl⟩ | ⟨t, ht1, _⟩
  · exact h2 r hr
  · exact h1 l₁ v t ht1 r hr

theorem reqOrdered_closed {rel : List (String × List String)} {out : List String}
    (h : ReqOrdered rel out) : ∀ v ∈ out, ∀ r ∈ requiresOf rel v, r ∈ out := by
  intro v hv r hr
  obtain ⟨s, t, rfl⟩ := List.append_of_mem hv
  exact List.mem_append.mpr (Or.inl (h s v t rfl r hr))

theorem reaches_mem {rel : List (String × List String)} {out : List String}
    (hcl : ∀ v ∈ out, ∀ r ∈ requiresOf rel v, r ∈ out)
    {t x : String} (ht : t ∈ out) (hr : Reaches rel t x) : x ∈ out := by
  induction hr with
  | refl => exact ht
  | tail _ hreq ih => exact hcl _ ih _ hreq

/-- Basic run facts of the closure DFS: `seen` grows, every processed root ends
up in `seen`, and the `seen`-equals-`out` correspondence is preserved. -/
theorem expandGo_basic (rel : List (String × List String)) :
    ∀ n ws st st', expandGo rel n ws st = some st' →
      (∀ x, x ∈ st.2 → x ∈ st'.2) ∧ (∀ w ∈ ws, w ∈ st'.2) ∧
      ((∀ x, x ∈ st.2 ↔ x ∈ st.1) → ∀ x, x ∈ st'.2 ↔ x ∈ st'.1) := by
  intro n
  induction n with
  | zero => intro ws st st' h; simp [expandGo] at h
  | succ n ih =>
    intro ws st st' h
    cases ws with
    | nil =>
      simp only [expandGo, Option.some.injEq] at h
      subst h
      exact ⟨fun x hx => hx, by simp, fun hc => hc⟩
    | cons w ws =>
      simp only [expandGo] at h
      by_cases hw : w ∈ st.2
      · rw [if_pos hw] at h
        obtain ⟨h1, h2, h3⟩ := ih ws st st' h
        refine ⟨h1, ?_, h3⟩
        intro v hv
        rcases List.mem_cons.mp hv with rfl | hv
        · exact h1 v hw
        · exact h2 v hv
      · rw [if_neg hw] at h
        cases hin : expandGo rel n (requiresOf rel w) st with
        | none => rw [hin] at h; simp at h
        | some st2 =>
          rw [hin] at h
          obtain ⟨a1, _, a3⟩ := ih _ _ _ hin
          obtain ⟨b1, b2, b3⟩ := ih _ _ _ h
          refine ⟨?_, ?_, ?_⟩
          · intro x hx
            exact b1 x (List.mem_cons_of_mem _ (a1 x hx))
          · intro v hv
            rcases List.mem_cons.mp hv with rfl | hv
            · exact b1 v (List.mem_cons_self _ _)
            · exact b2 v hv
          · intro hc
            apply b3
            have hc2 := a3 hc
            intro x
            show x ∈ w :: st2.2 ↔ x ∈ st2.1 ++ [w]
            rw [List.mem_cons, List.mem_append, List.mem_singleton, hc2 x]
            exact Or.comm

/-- Everything the closure DFS adds to `seen` is reachable from a processed root. -/
theorem expandGo_reach (rel : List (String × List String)) :
    ∀ n ws st st', expandGo rel n ws st = some st' →
      ∀ x, x ∈ st'.2 → x ∈ st.2 ∨ ∃ w ∈ ws, Reaches rel w x := by
  intro n
  induction n with
  | zero => intro ws st st' h; simp [expandGo] at h
  | succ n ih =>
    intro ws st st' h x hx
    cases ws with
    | nil =>
      simp only [expandGo, Option.some.injEq] at h
      subst h
      exact Or.inl hx
    | cons w ws =>
      simp only [expandGo] at h
      by_cases hw : w ∈ st.2
      · rw [if_pos hw] at h
        rcases ih ws st st' h x hx with h1 | ⟨v, hv, hr⟩
        · exact Or.inl h1
        · exact Or.inr ⟨v, List.mem_cons_of_mem _ hv, hr⟩
      · rw [if_neg hw] at h
        cases hin : expandGo rel n (requiresOf rel w) st with
        | none => rw [hin] at h; simp at h
        | some st2 =>
          rw [hin] at h
          rcases ih ws _ st' h x hx with h1 | ⟨v, hv, hr⟩
          · rcases List.mem_cons.mp h1 with rfl | h1
            · exact Or.inr ⟨x, List.mem_cons_self _ _, Reaches.refl x⟩
            · rcases ih _ _ _ hin x h1 with h2 | ⟨r, hrr, hr2⟩
              · exact Or.inl h2
              · exact Or.inr ⟨w, List.mem_cons_self _ _,
                  (Reaches.tail (Reaches.refl w) hrr).trans hr2⟩
          · exact Or.inr ⟨v, List.mem_cons_of_mem _ hv, hr⟩

/-- Soundness of the closure DFS for an acyclic `requires` relation: the
correspondence, the dependency order and freedom from duplicates are preserved. -/
theorem expandGo_sound (rel : List (String × List String)) (hacyc : Acyclic rel) :
    ∀ n ws st st', expandGo rel n ws st = some st' →
      (∀ x, x ∈ st.2 ↔ x ∈ st.1) → ReqOrdered rel st.1 → st.1.Nodup →
      (∀ x, x ∈ st'.2 ↔ x ∈ st'.1) ∧ ReqOrdered rel st'.1 ∧ st'.1.Nodup := by
  intro n
  induction n with
  | zero => intro ws st st' h; simp [expandGo] at h
  | succ n ih =>
    intro ws st st' h hcorr hord hnd
    cases ws with
    | nil =>
      simp only [expandGo, Option.some.injEq] at h
      subst h
      exact ⟨hcorr, hord, hnd⟩
    | cons w ws =>
      simp only [expandGo] at h
      by_cases hw : w ∈ st.2
      · rw [if_pos hw] at h
        exact ih ws st st' h hcorr hord hnd
      · rw [if_neg hw] at h
        cases hin : expandGo rel n (requiresOf rel w) st with
        | none => rw [hin] at h; simp at h
        | some st2 =>
          rw [hin] at h
          obtain ⟨hc2, ho2, hn2⟩ := ih _ _ _ hin hcorr hord hnd
          obtain ⟨-, hroots, -⟩ := expandGo_basic rel n _ _ _ hin
          have hreq : ∀ r ∈ requiresOf rel w, r ∈ st2.1 :=
            fun r hr => (hc2 r).mp (hroots r hr)
          have hwnot2 : w ∉ st2.2 := by
            intro hmem
            rcases expandGo_reach rel n _ _ _ hin w hmem with h1 | ⟨r, hr, hre⟩
            · exact hw h1
            · exact hacyc w r hr hre
          have hwnot1 : w ∉ st2.1 := fun hmem => hwnot2 ((hc2 w).mpr hmem)
          apply ih ws _ st' h
          · intro x
            show x ∈ w :: st2.2 ↔ x ∈ st2.1 ++ [w]
            rw [List.mem_cons, List.mem_append, List.mem_singleton, hc2 x]
            exact Or.comm
          · exact reqOrdered_append ho2 hreq
          · rw [List.nodup_append]
            exact ⟨hn2, List.nodup_singleton w, by
              intro a ha hb
              rw [List.mem_singleton] at hb
              subst hb
              exact hwnot1 ha⟩

/-- With an acyclic `requires` relation, `topo_require_chain`'s extra
re-check before appending never fires, so the two DFS copies coincide. -/
theorem topoGo_eq_expandGo (rel : List (String × List String))
    (hacyc : Acyclic rel) : ∀ n ws st, topoGo rel n ws st = expandGo rel n ws st := by
  intro n
  induction n with
  | zero => intro ws st; rfl
  | succ n ih =>
    intro ws st
    cases ws with
    | nil => rfl
    | cons w ws =>
      simp only [topoGo, expandGo]
      by_cases hw : w ∈ st.2
      · rw [if_pos hw, if_pos hw]
        exact ih ws st
      · rw [if_neg hw, if_neg hw, ih (requiresOf rel w) st]
        cases hin : expandGo rel n (requiresOf rel w) st with
        | none => simp [hin]
        | some st2 =>
          have hwnot2 : w ∉ st2.2 := by
            intro hmem
            rcases expandGo_reach rel n _ _ _ hin w hmem with h1 | ⟨r, hr, hre⟩
            · exact hw h1
            · exact hacyc w r hr hre
          simp only [hin]
          rw [if_neg hwnot2]
          exact ih ws _

end PS1

namespace PS1

/-- Claim C1: for every list of target symbols, if the `requires` relation is
acyclic and the closure DFS terminates (returns `some`), the returned sequence
contains every target and every symbol transitively required by any target,
each symbol appears exactly once, every element of a symbol's requires-list
precedes that symbol, and `topo_require_chain` returns the same sequence. -/
theorem C1_dependency_closure (rel : List (String × List String))
    (targets : List String) (fuel : Nat) (out : List String)
    (hacyc : Acyclic rel) (h : expandWithRequires rel fuel targets = some out) :
    (∀ t ∈ targets, t ∈ out) ∧
    out.Nodup ∧
    (∀ t ∈ targets, ∀ x, Reaches rel t x → x ∈ out) ∧
    (∀ l₁ w l₂, out = l₁ ++ w :: l₂ → ∀ r ∈ requiresOf rel w, r ∈ l₁) ∧
    topoRequireChain rel fuel targets = some out := by
  obtain ⟨st', hrun, hout⟩ := Option.map_eq_some'.mp h
  have hcorr0 : ∀ x : String, x ∈ (([], []) : ExpSt).2 ↔ x ∈ (([], []) : ExpSt).1 :=
    fun x => Iff.rfl
  obtain ⟨hmono, hroots, hcorrf⟩ := expandGo_basic rel fuel targets ([], []) st' hrun
  obtain ⟨hcorr', hord, hnd⟩ :=
    expandGo_sound rel hacyc fuel targets ([], []) st' hrun hcorr0
      (reqOrdered_nil rel) List.nodup_nil
  have htarg : ∀ t ∈ targets, t ∈ out := by
    intro t ht
    rw [← hout]
    exact (hcorr' t).mp (hroots t ht)
  refine ⟨htarg, ?_, ?_, ?_, ?_⟩
  · rw [← hout]; exact hnd
  · intro t ht x hx
    have hcl : ∀ v ∈ out, ∀ r ∈ requiresOf rel v, r ∈ out := by
      rw [← hout]; exact reqOrdered_closed hord
    exact reaches_mem hcl (htarg t ht) hx
  · intro l₁ w l₂ heq
    exact hord l₁ w l₂ (hout ▸ heq)
  · rw [topoRequireChain, topoGo_eq_expandGo rel hacyc]
    exact h

/-- A concrete two-symbol relation graph used for witnesses:
`PadGetState` requires `PadInit` (spec scenario of section 8). -/
def rel0 : List (String × List String) := [("PadGetState", ["PadInit"])]

theorem rel0_requiresOf (v : String) :
    requiresOf rel0 v = if v = "PadGetState" then ["PadInit"] else [] := by
  by_cases hv : v = "PadGetState"
  · subst hv; rfl
  · rw [if_neg hv]
    have hb : (("PadGetState" : String) == v) = false :=
      beq_eq_false_iff_ne.mpr (Ne.symm hv)
    simp [requiresOf, rel0, List.find?, hb]

theorem rel0_acyclic : Acyclic rel0 := by
  intro w r hr hre
  rw [rel0_requiresOf] at hr
  by_cases hw : w = "PadGetState"
  · rw [if_pos hw] at hr
    rw [List.mem_singleton] at hr
    subst hr
    subst hw
    have hfix : ∀ a b, Reaches rel0 a b → a = "PadInit" → b = "PadInit" := by
      intro a b hab
      induction hab with
      | refl => exact fun hh => hh
      | tail _ hq ihq =>
        intro ha
        rw [ihq ha, rel0_requiresOf] at hq
        rw [if_neg (by decide)] at hq
        exact absurd hq (List.not_mem_nil _)
    exact absurd (hfix _ _ hre rfl) (by decide)
  · rw [if_neg hw] at hr
    exact absurd hr (List.not_mem_nil r)

/-- Witness for C1 at a concrete acyclic relation graph. -/
theorem C1_witness : Acyclic rel0 ∧
    expandWithRequires rel0 5 ["PadGetState"] = some ["PadInit", "PadGetState"] ∧
    (["PadInit", "PadGetState"] : List String).Nodup ∧
    topoRequireChain rel0 5 ["PadGetState"] = some ["PadInit", "PadGetState"] :=
  ⟨rel0_acyclic, rfl,
    (C1_dependency_closure rel0 ["PadGetState"] 5 _ rel0_acyclic rfl).2.1,
    (C1_dependency_closure rel0 ["PadGetState"] 5 _ rel0_acyclic rfl).2.2.2.2⟩

end PS1

namespace PS1

/-! ## Evidence selection (run_narrative.py `select_passages_event_minimal`,
lines 67-83; same algorithm in interpret_llm.py lines 48-78 with the corpus
as parameter) -/

/-- One entry of `manual_passages.json`: identifier, text body, the symbols it
substantiates, and an optional role tag (`p.get("role")`). -/
structure Passage where
  id : String
  text : String
  tokens : List String
  role : Option String

/-- Result of the first selection loop: chosen `(id, text)` pairs, the
`seen_ids` set, and whether the loop exited through the early `return`. -/
structure Sel1 where
  chosen : List (String × String)
  seenIds : List String
  early : Bool

/-- Pass 1: non-backbone passages substantiating a symbol of `T`. -/
def pass1 (T : List String) (mq : Nat) :
    List Passage → List (String × String) → List String → Sel1
  | [], ch, si => ⟨ch, si, false⟩
  | p :: ps, ch, si =>
    if p.id ∈ si ∨ p.role = some "backbone" then pass1 T mq ps ch si
    else if ∃ tok ∈ p.tokens, tok ∈ T then
      if mq ≤ (ch ++ [(p.id, p.text)]).length then ⟨ch ++ [(p.id, p.text)], p.id :: si, true⟩
      else pass1 T mq ps (ch ++ [(p.id, p.text)]) (p.id :: si)
    else pass1 T mq ps ch si

/-- Pass 2: backbone passages admitted only for a symbol of `prereq_only`. -/
def pass2 (pr : List String) (mq : Nat) :
    List Passage → List (String × String) → List String → List (String × String)
  | [], ch, _ => ch
  | p :: ps, ch, si =>
    if p.id ∈ si ∨ ¬ p.role = some "backbone" then pass2 pr mq ps ch si
    else if ∃ tok ∈ p.tokens, tok ∈ pr then
      if mq ≤ (ch ++ [(p.id, p.text)]).length then ch ++ [(p.id, p.text)]
      else pass2 pr mq ps (ch ++ [(p.id, p.text)]) (p.id :: si)
    else pass2 pr mq ps ch si

/-- `select_passages_event_minimal(activated_tokens, max_quotes)`:
`T = set(expand_with_requires(list(activated)))`, `prereq_only = T - activated`,
then the two passes over the corpus. `none` models a diverging closure. -/
def selectPassagesEventMinimal (rel : List (String × List String))
    (passages : List Passage) (fuel : Nat) (activated : List String)
    (maxQuotes : Nat) : Option (List (String × String)) :=
  match expandWithRequires rel fuel activated with
  | none => none
  | some texp =>
    let s1 := pass1 texp maxQuotes passages [] []
    if s1.early then some s1.chosen
    else some (pass2 (texp.filter (fun w => decide (w ∉ activated)))
      maxQuotes passages s1.chosen s1.seenIds)

end PS1

namespace PS1

/-- Run facts of selection pass 1: every chosen pair comes from an eligible
non-backbone passage, `seen_ids` and `chosen` grow together and stay in
correspondence, the quota bounds the result, the early flag is set exactly
when the quota was reached, and when the pass ends without the early
`return` every eligible non-backbone passage has been recorded. -/
theorem pass1_spec (T : List String) (mq : Nat) :
    ∀ ps ch si s1, pass1 T mq ps ch si = s1 →
      (∀ q ∈ s1.chosen, q ∈ ch ∨ ∃ p, p ∈ ps ∧ q = (p.id, p.text) ∧
        ¬ p.role = some "backbone" ∧ ∃ tok ∈ p.tokens, tok ∈ T) ∧
      (∀ x ∈ si, x ∈ s1.seenIds) ∧
      (∀ q ∈ ch, q ∈ s1.chosen) ∧
      ((∀ x, x ∈ si ↔ x ∈ ch.map Prod.fst) →
        (∀ x, x ∈ s1.seenIds ↔ x ∈ s1.chosen.map Prod.fst) ∧
        ((ch.map Prod.fst).Nodup → (s1.chosen.map Prod.fst).Nodup)) ∧
      (ch.length < mq → s1.chosen.length ≤ mq ∧
        (s1.early = false → s1.chosen.length < mq)) ∧
      (s1.early = true → mq ≤ s1.chosen.length) ∧
      (s1.early = false → ∀ p ∈ ps, ¬ p.role = some "backbone" →
        (∃ tok ∈ p.tokens, tok ∈ T) → p.id ∈ s1.seenIds) := by
  intro ps
  induction ps with
  | nil =>
    intro ch si s1 h
    subst h
    refine ⟨fun q hq => Or.inl hq, fun x hx => hx, fun q hq => hq,
      fun hc => ⟨hc, fun hn => hn⟩, fun hl => ⟨Nat.le_of_lt hl, fun _ => hl⟩,
      ?_, ?_⟩
    · intro he; exact absurd he (by simp [pass1])
    · intro _ p hp; exact absurd hp (List.not_mem_nil p)
  | cons p ps ih =>
    intro ch si s1 h
    simp only [pass1] at h
    by_cases hskip : p.id ∈ si ∨ p.role = some "backbone"
    · rw [if_pos hskip] at h
      obtain ⟨o1, o2, o3, o4, o5, o6, o7⟩ := ih ch si s1 h
      refine ⟨?_, o2, o3, o4, o5, o6, ?_⟩
      · intro q hq
        rcases o1 q hq with hq | ⟨p', hp', rest⟩
        · exact Or.inl hq
        · exact Or.inr ⟨p', List.mem_cons_of_mem _ hp', rest⟩
      · intro he q hq hrole hany
        rcases List.mem_cons.mp hq with rfl | hq
        · rcases hskip with hid | hrole2
          · exact o2 q.id hid
          · exact absurd hrole2 hrole
        · exact o7 he q hq hrole hany
    · rw [if_neg hskip] at h
      push_neg at hskip
      obtain ⟨hid, hrole⟩ := hskip
      by_cases hany : ∃ tok ∈ p.tokens, tok ∈ T
      · rw [if_pos hany] at h
        by_cases hquota : mq ≤ (ch ++ [(p.id, p.text)]).length
        · rw [if_pos hquota] at h
          subst h
          refine ⟨?_, ?_, ?_, ?_, ?_, ?_, ?_⟩
          · intro q hq
            rcases List.mem_append.mp hq with hq | hq
            · exact Or.inl hq
            · rw [List.mem_singleton] at hq
              exact Or.inr ⟨p, List.mem_cons_self _ _, hq, hrole, hany⟩
          · intro x hx; exact List.mem_cons_of_mem _ hx
          · intro q hq; exact List.mem_append.mpr (Or.inl hq)
          · intro hc
            constructor
            · intro x
              show x ∈ p.id :: si ↔ x ∈ (ch ++ [(p.id, p.text)]).map Prod.fst
              rw [List.map_append, List.mem_cons, List.mem_append, hc x]
              simp only [List.map_cons, List.map_nil, List.mem_singleton]
              exact Or.comm
            · intro hn
              rw [List.map_append, List.nodup_append]
              refine ⟨hn, by simp, ?_⟩
              intro a ha hb
              simp only [List.map_cons, List.map_nil, List.mem_singleton] at hb
              subst hb
              exact hid ((hc _).mpr ha)
          · intro hl
            constructor
            · simpa using hl
            · intro he; exact absurd he (by simp)
          · intro _; exact hquota
          · intro he; exact absurd he (by simp)
        · rw [if_neg hquota] at h
          obtain ⟨o1, o2, o3, o4, o5, o6, o7⟩ := ih _ _ _ h
          have hlen : (ch ++ [(p.id, p.text)]).length = ch.length + 1 := by simp
          refine ⟨?_, ?_, ?_, ?_, ?_, o6, ?_⟩
          · intro q hq
            rcases o1 q hq with hq | ⟨p', hp', rest⟩
            · rcases List.mem_append.mp hq with hq | hq
              · exact Or.inl hq
              · rw [List.mem_singleton] at hq
                exact Or.inr ⟨p, List.mem_cons_self _ _, hq, hrole, hany⟩
            · exact Or.inr ⟨p', List.mem_cons_of_mem _ hp', rest⟩
          · intro x hx; exact o2 x (List.mem_cons_of_mem _ hx)
          · intro q hq; exact o3 q (List.mem_append.mpr (Or.inl hq))
          · intro hc
            have hc' : ∀ x, x ∈ p.id :: si ↔ x ∈ (ch ++ [(p.id, p.text)]).map Prod.fst := by
              intro x
              rw [List.map_append, List.mem_cons, List.mem_append, hc x]
              simp only [List.map_cons, List.map_nil, List.mem_singleton]
              exact Or.comm
            obtain ⟨c1, c2⟩ := o4 hc'
            refine ⟨c1, ?_⟩
            intro hn
            apply c2
            rw [List.map_append, List.nodup_append]
            refine ⟨hn, by simp, ?_⟩
            intro a ha hb
            simp only [List.map_cons, List.map_nil, List.mem_singleton] at hb
            subst hb
            exact hid ((hc _).mpr ha)
          · intro _
            apply o5
            exact Nat.lt_of_not_le (by simpa using hquota)
          · intro he q hq hrole2 hany2
            rcases List.mem_cons.mp hq with rfl | hq
            · exact o2 q.id (List.mem_cons_self _ _)
            · exact o7 he q hq hrole2 hany2
      · rw [if_neg hany] at h
        obtain ⟨o1, o2, o3, o4, o5, o6, o7⟩ := ih ch si s1 h
        refine ⟨?_, o2, o3, o4, o5, o6, ?_⟩
        · intro q hq
          rcases o1 q hq with hq | ⟨p', hp', rest⟩
          · exact Or.inl hq
          · exact Or.inr ⟨p', List.mem_cons_of_mem _ hp', rest⟩
        · intro he q hq hrole2 hany2
          rcases List.mem_cons.mp hq with rfl | hq
          · exact absurd hany2 hany
          · exact o7 he q hq hrole2 hany2

/-- Run facts of selection pass 2: every chosen pair comes from the input or
from a backbone passage substantiating a prerequisite-only symbol, the input
choices are kept, distinctness of identifiers is preserved, and the quota
bounds the result. -/
theorem pass2_spec (pr : List String) (mq : Nat) :
    ∀ ps ch si res, pass2 pr mq ps ch si = res →
      (∀ q ∈ res, q ∈ ch ∨ ∃ p, p ∈ ps ∧ q = (p.id, p.text) ∧
        p.role = some "backbone" ∧ ∃ tok ∈ p.tokens, tok ∈ pr) ∧
      (∀ q ∈ ch, q ∈ res) ∧
      ((∀ x, x ∈ si ↔ x ∈ ch.map Prod.fst) →
        (ch.map Prod.fst).Nodup → (res.map Prod.fst).Nodup) ∧
      (ch.length < mq → res.length ≤ mq) := by
  intro ps
  induction ps with
  | nil =>
    intro ch si res h
    subst h
    exact ⟨fun q hq => Or.inl hq, fun q hq => hq, fun _ hn => hn,
      fun hl => Nat.le_of_lt hl⟩
  | cons p ps ih =>
    intro ch si res h
    simp only [pass2] at h
    by_cases hskip : p.id ∈ si ∨ ¬ p.role = some "backbone"
    · rw [if_pos hskip] at h
      obtain ⟨o1, o2, o3, o4⟩ := ih ch si res h
      refine ⟨?_, o2, o3, o4⟩
      intro q hq
      rcases o1 q hq with hq | ⟨p', hp', rest⟩
      · exact Or.inl hq
      · exact Or.inr ⟨p', List.mem_cons_of_mem _ hp', rest⟩
    · rw [if_neg hskip] at h
      push_neg at hskip
      obtain ⟨hid, hrole⟩ := hskip
      by_cases hany : ∃ tok ∈ p.tokens, tok ∈ pr
      · rw [if_pos hany] at h
        by_cases hquota : mq ≤ (ch ++ [(p.id, p.text)]).length
        · rw [if_pos hquota] at h
          subst h
          refine ⟨?_, ?_, ?_, ?_⟩
          · intro q hq
            rcases List.mem_append.mp hq with hq | hq
            · exact Or.inl hq
            · rw [List.mem_singleton] at hq
              exact Or.inr ⟨p, List.mem_cons_self _ _, hq, hrole, hany⟩
          · intro q hq; exact List.mem_append.mpr (Or.inl hq)
          · intro hc hn
            rw [List.map_append, List.nodup_append]
            refine ⟨hn, by simp, ?_⟩
            intro a ha hb
            simp only [List.map_cons, List.map_nil, List.mem_singleton] at hb
            subst hb
            exact hid ((hc _).mpr ha)
          · intro hl; simpa using hl
        · rw [if_neg hquota] at h
          obtain ⟨o1, o2, o3, o4⟩ := ih _ _ _ h
          refine ⟨?_, ?_, ?_, ?_⟩
          · intro q hq
            rcases o1 q hq with hq | ⟨p', hp', rest⟩
            · rcases List.mem_append.mp hq with hq | hq
              · exact Or.inl hq
              · rw [List.mem_singleton] at hq
                exact Or.inr ⟨p, List.mem_cons_self _ _, hq, hrole, hany⟩
            · exact Or.inr ⟨p', List.mem_cons_of_mem _ hp', rest⟩
          · intro q hq; exact o2 q (List.mem_append.mpr (Or.inl hq))
          · intro hc hn
            apply o3
            · intro x
              rw [List.map_append, List.mem_cons, List.mem_append, hc x]
              simp only [List.map_cons, List.map_nil, List.mem_singleton]
              exact Or.comm
            · rw [List.map_append, List.nodup_append]
              refine ⟨hn, by simp, ?_⟩
              intro a ha hb
              simp only [List.map_cons, List.map_nil, List.mem_singleton] at hb
              subst hb
              exact hid ((hc _).mpr ha)
          · intro _
            apply o4
            exact Nat.lt_of_not_le (by simpa using hquota)
      · rw [if_neg hany] at h
        obtain ⟨o1, o2, o3, o4⟩ := ih ch si res h
        refine ⟨?_, o2, o3, o4⟩
        intro q hq
        rcases o1 q hq with hq | ⟨p', hp', rest⟩
        · exact Or.inl hq
        · exact Or.inr ⟨p', List.mem_cons_of_mem _ hp', rest⟩

end PS1

namespace PS1

/-- Claim C2: a backbone passage is selected only if it substantiates a
symbol of `prereq_only = closure(activated) - activated`; and whenever the
quota is not exhausted, every non-backbone passage substantiating a symbol
of `T = closure(activated)` is selected, with no prerequisite condition. -/
theorem C2_backbone_policy (rel : List (String × List String))
    (passages : List Passage) (fuel : Nat) (activated : List String)
    (mq : Nat) (res : List (String × String)) (texp : List String)
    (hexp : expandWithRequires rel fuel activated = some texp)
    (h : selectPassagesEventMinimal rel passages fuel activated mq = some res) :
    (∀ q ∈ res, ∃ p, p ∈ passages ∧ q.1 = p.id ∧ q.2 = p.text ∧
      (p.role = some "backbone" → ∃ tok ∈ p.tokens, tok ∈ texp ∧ tok ∉ activated) ∧
      (¬ p.role = some "backbone" → ∃ tok ∈ p.tokens, tok ∈ texp)) ∧
    (res.length < mq → ∀ p ∈ passages, ¬ p.role = some "backbone" →
      (∃ tok ∈ p.tokens, tok ∈ texp) → ∃ q ∈ res, q.1 = p.id) := by
  rw [selectPassagesEventMinimal, hexp] at h
  simp only [] at h
  obtain ⟨o1, o2, o3, o4, o5, o6, o7⟩ :=
    pass1_spec texp mq passages [] [] (pass1 texp mq passages [] []) rfl
  have hc0 : ∀ x : String, x ∈ ([] : List String) ↔
      x ∈ ([] : List (String × String)).map Prod.fst := by simp
  by_cases he : (pass1 texp mq passages [] []).early
  · rw [if_pos he, Option.some.injEq] at h
    subst h
    constructor
    · intro q hq
      rcases o1 q hq with hq | ⟨p, hp, rfl, hrole, hany⟩
      · exact absurd hq (List.not_mem_nil q)
      · exact ⟨p, hp, rfl, rfl, fun hb => absurd hb hrole, fun _ => hany⟩
    · intro hlt
      exact absurd (Nat.lt_of_le_of_lt (o6 he) hlt) (Nat.lt_irrefl mq)
  · rw [if_neg he, Option.some.injEq] at h
    have he' : (pass1 texp mq passages [] []).early = false :=
      Bool.eq_false_iff.mpr he
    obtain ⟨t1, t2, t3, t4⟩ :=
      pass2_spec (texp.filter (fun w => decide (w ∉ activated))) mq passages
        (pass1 texp mq passages [] []).chosen
        (pass1 texp mq passages [] []).seenIds res h
    constructor
    · intro q hq
      rcases t1 q hq with hq | ⟨p, hp, rfl, hrole, hany⟩
      · rcases o1 q hq with hq | ⟨p, hp, rfl, hrole, hany⟩
        · exact absurd hq (List.not_mem_nil q)
        · exact ⟨p, hp, rfl, rfl, fun hb => absurd hb hrole, fun _ => hany⟩
      · refine ⟨p, hp, rfl, rfl, fun _ => ?_, fun hnb => absurd hrole hnb⟩
        obtain ⟨tok, htok, hpr⟩ := hany
        rw [List.mem_filter] at hpr
        exact ⟨tok, htok, hpr.1, of_decide_eq_true hpr.2⟩
    · intro hlt p hp hrole hany
      have hin : p.id ∈ (pass1 texp mq passages [] []).seenIds :=
        o7 he' p hp hrole hany
      have hcorr := (o4 hc0).1
      have : p.id ∈ (pass1 texp mq passages [] []).chosen.map Prod.fst :=
        (hcorr p.id).mp hin
      obtain ⟨q, hq, hqid⟩ := List.mem_map.mp this
      exact ⟨q, t2 q hq, hqid⟩

/-- Witness passage for the selection claims. -/
def passage0 : Passage := ⟨"p1", "t", ["A"], none⟩

/-- Witness for C2 at a one-passage corpus. -/
theorem C2_witness :
    expandWithRequires [] 3 ["A"] = some ["A"] ∧
    selectPassagesEventMinimal [] [passage0] 3 ["A"] 4 = some [("p1", "t")] ∧
    (∀ q ∈ [(("p1" : String), ("t" : String))], ∃ p, p ∈ [passage0] ∧
      q.1 = p.id ∧ q.2 = p.text ∧
      (p.role = some "backbone" → ∃ tok ∈ p.tokens, tok ∈ ["A"] ∧ tok ∉ ["A"]) ∧
      (¬ p.role = some "backbone" → ∃ tok ∈ p.tokens, tok ∈ ["A"])) :=
  ⟨rfl, rfl, (C2_backbone_policy [] [passage0] 3 ["A"] 4 [("p1", "t")] ["A"]
    rfl rfl).1⟩

/-- Claim C3, amended: for a positive quota the selector returns at most
`max_quotes` passages, and the returned identifiers are always pairwise
distinct. (For `max_quotes = 0` the code can return one passage, because the
quota test runs only after a passage has been appended; see the
counterexample.) -/
theorem C3_select_bound (rel : List (String × List String))
    (passages : List Passage) (fuel : Nat) (activated : List String)
    (mq : Nat) (res : List (String × String)) (hmq : 1 ≤ mq)
    (h : selectPassagesEventMinimal rel passages fuel activated mq = some res) :
    res.length ≤ mq ∧ (res.map Prod.fst).Nodup := by
  rw [selectPassagesEventMinimal] at h
  cases hexp : expandWithRequires rel fuel activated with
  | none => rw [hexp] at h; simp at h
  | some texp =>
    rw [hexp] at h
    simp only [] at h
    obtain ⟨o1, o2, o3, o4, o5, o6, o7⟩ :=
      pass1_spec texp mq passages [] [] (pass1 texp mq passages [] []) rfl
    have hc0 : ∀ x : String, x ∈ ([] : List String) ↔
        x ∈ ([] : List (String × String)).map Prod.fst := by simp
    have h0 : ([] : List (String × String)).length < mq := hmq
    by_cases he : (pass1 texp mq passages [] []).early
    · rw [if_pos he, Option.some.injEq] at h
      subst h
      exact ⟨(o5 h0).1, (o4 hc0).2 (by simp)⟩
    · rw [if_neg he, Option.some.injEq] at h
      have he' : (pass1 texp mq passages [] []).early = false :=
        Bool.eq_false_iff.mpr he
      obtain ⟨t1, t2, t3, t4⟩ :=
        pass2_spec (texp.filter (fun w => decide (w ∉ activated))) mq passages
          (pass1 texp mq passages [] []).chosen
          (pass1 texp mq passages [] []).seenIds res h
      exact ⟨t4 ((o5 h0).2 he'), t3 (o4 hc0).1 ((o4 hc0).2 (by simp))⟩

/-- Witness for C3 (amended) at a one-passage corpus with quota 4. -/
theorem C3_witness : 1 ≤ 4 ∧
    selectPassagesEventMinimal [] [passage0] 3 ["A"] 4 = some [("p1", "t")] ∧
    ([(("p1" : String), ("t" : String))].length ≤ 4 ∧
      ([(("p1" : String), ("t" : String))].map Prod.fst).Nodup) :=
  ⟨by decide, rfl, C3_select_bound [] [passage0] 3 ["A"] 4 [("p1", "t")]
    (by decide) rfl⟩

/-- Counterexample to C3 as stated: with `max_quotes = 0` the selector still
returns one passage, because the quota test `len(chosen) >= max_quotes` runs
only after the passage was appended. -/
theorem C3_counterexample :
    selectPassagesEventMinimal [] [passage0] 3 ["A"] 0 = some [("p1", "t")] ∧
    ¬ (([(("p1" : String), ("t" : String))] : List (String × String)).length ≤ 0) :=
  ⟨rfl, by decide⟩

end PS1

namespace PS1

/-! ## Lexical interpreter (run_narrative.py `_tokenize`, `interpret_event`,
lines 24-48; interpret.py lines 21-37 and 92-97 carry the same lookups) -/

/-- A character kept by `re.split(r"[^a-z0-9_]+", ...)`. -/
def isLexChar (c : Char) : Bool :=
  (decide ('a' ≤ c ∧ c ≤ 'z')) || (decide ('0' ≤ c ∧ c ≤ '9')) || c == '_'

/-- Accumulator pass splitting a character list into the maximal runs of
characters satisfying `p`; `cur` holds the current run reversed. -/
def runsGo (p : Char → Bool) (cur : List Char) : List Char → List (List Char)
  | [] => if cur.isEmpty then [] else [cur.reverse]
  | c :: r =>
    if p c then runsGo p (c :: cur) r
    else if cur.isEmpty then runsGo p [] r else cur.reverse :: runsGo p [] r

/-- The maximal nonempty runs of characters satisfying `p`. -/
def charRuns (p : Char → Bool) (l : List Char) : List (List Char) :=
  runsGo p [] l

/-- `_tokenize(text)`: lowercase, split on any character outside `[a-z0-9_]`,
drop empty fragments. (`Char.toLower` models `str.lower` on ASCII.) -/
def tokenizeText (text : String) : List String :=
  (charRuns isLexChar (text.toList.map Char.toLower)).map String.mk

/-- The lexicon `neutral_map.json`: `lex2neutral` and `neutral2sdk`. -/
structure NeutralMap where
  lex2neutral : List (String × List String)
  neutral2sdk : List (String × List String)

/-- `tbl.get(k, [])`-style lookup (a missing key and an empty entry are both
the empty list, exactly the cases Python treats as falsy). -/
def lookupTable (tbl : List (String × List String)) (k : String) : List String :=
  match tbl.find? (fun p => p.1 == k) with
  | some p => p.2
  | none => []

/-- The vocabulary store `symbols.json`: functions, literals, enum keys. -/
structure Symbols where
  functions : List String
  literals : List String
  enums : List String

/-- `w in SYMBOLS["functions"] or w in SYMBOLS["literals"] or w in SYMBOLS["enums"]`. -/
def isVocab (symbols : Symbols) (w : String) : Bool :=
  decide (w ∈ symbols.functions) || decide (w ∈ symbols.literals) ||
    decide (w ∈ symbols.enums)

/-- `sorted(set(l))`: the canonical ascending duplicate-free enumeration. -/
def sortDedup (l : List String) : List String :=
  List.insertionSort (fun a b => a ≤ b) l.dedup

/-- The neutral-tag set accumulated over the tokens, in first-occurrence
order (one canonical enumeration of the Python set). -/
def neutralOf (nm : NeutralMap) (tokens : List String) : List String :=
  (tokens.flatMap (fun t => lookupTable nm.lex2neutral t)).dedup

/-- `bag_of_api` computed from an enumeration `neutral` of the neutral-tag
set: look up candidate symbols, keep those in the vocabulary store, and
return `sorted(set(...))`. -/
def bagFromNeutral (nm : NeutralMap) (symbols : Symbols)
    (neutral : List String) : List String :=
  sortDedup ((neutral.flatMap (fun n => lookupTable nm.neutral2sdk n)).filter
    (isVocab symbols))

/-- `unrepresentable`: `sorted(set(tokens) - mapped_terms)`, where a token is
mapped iff its `lex2neutral` lookup is truthy (nonempty). -/
def unrepOf (nm : NeutralMap) (tokens : List String) : List String :=
  sortDedup (tokens.filter (fun t => (lookupTable nm.lex2neutral t).isEmpty))

/-- Interpretation result: `bag_of_api` and `unrepresentable`. -/
structure Interp where
  bag : List String
  unrep : List String

/-- `interpret_event(text)` with the enumeration of the intermediate Python
`neutral` set made explicit (its iteration order is arbitrary). -/
def interpretEventWithOrder (nm : NeutralMap) (symbols : Symbols)
    (text : String) (neutral : List String) : Interp :=
  { bag := bagFromNeutral nm symbols neutral
    unrep := unrepOf nm (tokenizeText text) }

/-- `interpret_event(text)` (run_narrative.py lines 27-48) at the canonical
enumeration of the neutral set. -/
def interpretEvent (nm : NeutralMap) (symbols : Symbols) (text : String) : Interp :=
  interpretEventWithOrder nm symbols text (neutralOf nm (tokenizeText text))

theorem sortDedup_mem {x : String} {l : List String} :
    x ∈ sortDedup l ↔ x ∈ l := by
  rw [sortDedup, (List.perm_insertionSort _ _).mem_iff, List.mem_dedup]

theorem sortDedup_nodup (l : List String) : (sortDedup l).Nodup :=
  ((List.perm_insertionSort _ _).symm).nodup (List.nodup_dedup l)

theorem sortDedup_sorted (l : List String) :
    List.Sorted (fun a b : String => a ≤ b) (sortDedup l) :=
  List.sorted_insertionSort _ _

theorem sortDedup_ext {l₁ l₂ : List String}
    (h : ∀ x, x ∈ l₁ ↔ x ∈ l₂) : sortDedup l₁ = sortDedup l₂ := by
  apply List.eq_of_perm_of_sorted _ (sortDedup_sorted l₁) (sortDedup_sorted l₂)
  apply (List.perm_ext_iff_of_nodup (sortDedup_nodup l₁) (sortDedup_nodup l₂)).mpr
  intro a
  rw [sortDedup_mem, sortDedup_mem]
  exact h a

end PS1

namespace PS1

/-- Claim C7: a token is reported unrepresentable iff its `lex2neutral`
lookup yields zero neutral tags, regardless of the vocabulary filter; the
output is a duplicate-free set of such tokens. -/
theorem C7_unrepresentable_iff (nm : NeutralMap) (symbols : Symbols)
    (text : String) :
    (∀ t, t ∈ (interpretEvent nm symbols text).unrep ↔
      (t ∈ tokenizeText text ∧ lookupTable nm.lex2neutral t = [])) ∧
    (interpretEvent nm symbols text).unrep.Nodup ∧
    (∀ symbols₂, (interpretEvent nm symbols₂ text).unrep =
      (interpretEvent nm symbols text).unrep) := by
  refine ⟨?_, sortDedup_nodup _, fun s₂ => rfl⟩
  intro t
  show t ∈ unrepOf nm (tokenizeText text) ↔ _
  rw [unrepOf, sortDedup_mem, List.mem_filter, List.isEmpty_iff]

/-- Claim C9: interpretation is deterministic — the result does not depend
on the iteration order of the intermediate neutral-tag set, so two runs on
the same text and tables agree. -/
theorem C9_interpret_deterministic (nm : NeutralMap) (symbols : Symbols)
    (text : String) (n₁ n₂ : List String)
    (h₁ : n₁.Perm (neutralOf nm (tokenizeText text)))
    (h₂ : n₂.Perm (neutralOf nm (tokenizeText text))) :
    interpretEventWithOrder nm symbols text n₁ =
      interpretEventWithOrder nm symbols text n₂ ∧
    interpretEvent nm symbols text =
      interpretEventWithOrder nm symbols text (neutralOf nm (tokenizeText text)) := by
  refine ⟨?_, rfl⟩
  have hmm : ∀ x, x ∈ n₁ ↔ x ∈ n₂ := fun x => h₁.mem_iff.trans h₂.mem_iff.symm
  have hbag : bagFromNeutral nm symbols n₁ = bagFromNeutral nm symbols n₂ := by
    apply sortDedup_ext
    intro x
    rw [List.mem_filter, List.mem_filter, List.mem_flatMap, List.mem_flatMap]
    constructor
    · rintro ⟨⟨a, ha, hx⟩, hg⟩
      exact ⟨⟨a, (hmm a).mp ha, hx⟩, hg⟩
    · rintro ⟨⟨a, ha, hx⟩, hg⟩
      exact ⟨⟨a, (hmm a).mpr ha, hx⟩, hg⟩
  show Interp.mk _ _ = Interp.mk _ _
  rw [hbag]

/-- Lexicon and vocabulary store used in interpreter witnesses. -/
def nm0 : NeutralMap :=
  ⟨[("pad", ["a", "b"])], [("a", ["PadInit"]), ("b", ["PadInit"])]⟩

def sym0 : Symbols := ⟨["PadInit"], [], []⟩

/-- Witness for C9: two enumerations of the neutral set give equal results. -/
theorem C9_witness :
    (["b", "a"] : List String).Perm (neutralOf nm0 (tokenizeText "pad")) ∧
    (["a", "b"] : List String).Perm (neutralOf nm0 (tokenizeText "pad")) ∧
    interpretEventWithOrder nm0 sym0 "pad" ["b", "a"] =
      interpretEventWithOrder nm0 sym0 "pad" ["a", "b"] :=
  ⟨by decide, by decide,
    (C9_interpret_deterministic nm0 sym0 "pad" ["b", "a"] ["a", "b"]
      (by decide) (by decide)).1⟩

theorem filter_length_all {α : Type} (p : α → Bool) (l : List α)
    (h : (l.filter p).length = l.length) : ∀ a ∈ l, p a = true := by
  induction l with
  | nil => intro a ha; exact absurd ha (List.not_mem_nil a)
  | cons b l ih =>
    intro a ha
    rw [List.filter_cons] at h
    by_cases hb : p b
    · rw [if_pos hb, List.length_cons, List.length_cons,
        Nat.add_right_cancel_iff] at h
      rcases List.mem_cons.mp ha with rfl | ha
      · exact hb
      · exact ih h a ha
    · rw [if_neg hb, List.length_cons] at h
      have := List.length_filter_le p l
      omega

theorem flatMap_eq_nil_of_forall {α β : Type} (f : α → List β) (l : List α)
    (h : ∀ a ∈ l, f a = []) : l.flatMap f = [] := by
  induction l with
  | nil => rfl
  | cons a l ih =>
    rw [List.flatMap_cons, h a (List.mem_cons_self a l),
      ih (fun b hb => h b (List.mem_cons_of_mem _ hb))]
    rfl

/-- Claim C10: the orchestrator's fallback guard fires iff the activated
symbol set is empty — if the distinct unrepresentable-term count equals the
raw token-sequence length, every token is unmapped, so no neutral tag and
hence no symbol is activated, making the second disjunct redundant. -/
theorem C10_guard_iff (nm : NeutralMap) (symbols : Symbols) (text : String) :
    ((interpretEvent nm symbols text).bag = [] ∨
      (interpretEvent nm symbols text).unrep.length = (tokenizeText text).length) ↔
    (interpretEvent nm symbols text).bag = [] := by
  constructor
  · rintro (hb | hlen)
    · exact hb
    · have hlen' : (sortDedup ((tokenizeText text).filter
          (fun t => (lookupTable nm.lex2neutral t).isEmpty))).length =
          (tokenizeText text).length := hlen
      have h1 : (sortDedup ((tokenizeText text).filter
          (fun t => (lookupTable nm.lex2neutral t).isEmpty))).length ≤
          ((tokenizeText text).filter
            (fun t => (lookupTable nm.lex2neutral t).isEmpty)).length := by
        rw [sortDedup, (List.perm_insertionSort _ _).length_eq]
        exact (List.dedup_sublist _).length_le
      have h2 := List.length_filter_le
        (fun t => (lookupTable nm.lex2neutral t).isEmpty) (tokenizeText text)
      have hfl : ((tokenizeText text).filter
          (fun t => (lookupTable nm.lex2neutral t).isEmpty)).length =
          (tokenizeText text).length := by omega
      have hall := filter_length_all _ _ hfl
      have hneutral : neutralOf nm (tokenizeText text) = [] := by
        rw [neutralOf,
          flatMap_eq_nil_of_forall _ _
            (fun a ha => List.isEmpty_iff.mp (hall a ha))]
        rfl
      show bagFromNeutral nm symbols (neutralOf nm (tokenizeText text)) = []
      rw [hneutral]
      rfl
  · exact Or.inl

end PS1

namespace PS1

/-! ## Narrative lint (run_narrative.py `lint_output`, lines 156-172;
interpret_llm.py lines 121-144 is the same routine) -/

/-- A regex word character `[A-Za-z0-9_]` (ASCII model of `\w` / `\b`). -/
def isWordChar (c : Char) : Bool :=
  c.isUpper || c.isLower || c.isDigit || c == '_'

/-- `re.findall(r"\b[A-Z][A-Za-z0-9_]*\b", s)`: the maximal word-character
runs of `s` that begin with an uppercase letter. -/
def capTokens (s : String) : List String :=
  ((charRuns isWordChar s.toList).filter
    (fun run => match run with | c :: _ => c.isUpper | [] => false)).map String.mk

/-- Case-insensitive anchored comparison: the needle matches here and the
character right after it (if any) is not a word character. -/
def matchesHere : List Char → List Char → Bool
  | [], [] => true
  | [], c :: _ => ! isWordChar c
  | _ :: _, [] => false
  | n :: ns, c :: cs => (n.toLower == c.toLower) && matchesHere ns cs

/-- Scan for a whole-word case-insensitive occurrence, tracking whether the
previous character was a word character (the left `\b`). -/
def searchGo (needle : List Char) (prevWord : Bool) : List Char → Bool
  | [] => (! prevWord) && matchesHere needle []
  | c :: cs =>
    ((! prevWord) && matchesHere needle (c :: cs)) || searchGo needle (isWordChar c) cs

/-- `re.search(rf"\b{re.escape(term)}\b", narr, re.I)` for a term made of
word characters (the pipeline's banned terms are tokenizer outputs). -/
def occursWhole (narr term : String) : Bool :=
  searchGo term.toList false narr.toList

/-- A generation-service output after field extraction: narrative text,
claimed citation ids, claimed tokens, and an optional parse-error marker. -/
structure LLMOut where
  narrative : String
  citationsUsed : List String
  tokensUsed : List String
  parseErr : Option String

/-- Loop over capitalized tokens: flag any not allowed and not exempt. -/
def capCheck (allowed : List String) : List String → Bool × List String → Bool × List String
  | [], acc => acc
  | t :: ts, acc =>
    capCheck allowed ts
      (if t ∈ allowed ∨ t = "I" ∨ t = "PS1" then acc
       else (false, acc.2 ++ ["unallowed token: " ++ t]))

/-- Loop over used citation ids: flag any outside the provided ids. -/
def cidCheck (validIds : List String) : List String → Bool × List String → Bool × List String
  | [], acc => acc
  | c :: cs, acc =>
    cidCheck validIds cs
      (if c ∈ validIds then acc else (false, acc.2 ++ ["bad citation id: " ++ c]))

/-- Loop over banned terms: flag any whole-word occurrence in the narrative. -/
def bannedCheck (narr : String) : List String → Bool × List String → Bool × List String
  | [], acc => acc
  | b :: bs, acc =>
    bannedCheck narr bs
      (if occursWhole narr b then (false, acc.2 ++ ["unrepresentable term present: " ++ b])
       else acc)

/-- `lint_output(out, allowed_tokens, provided_ids, banned_terms)`: the four
checks in source order, collecting all issues; `dedup` enumerates the Python
sets `used_caps` and `cids`. -/
def lintOutput (out : LLMOut) (allowed : List String) (providedIds : List String)
    (banned : List String) : Bool × List String :=
  let acc1 := capCheck allowed (capTokens out.narrative).dedup (true, [])
  let acc2 := if out.citationsUsed.dedup = []
    then (false, acc1.2 ++ ["no citations used"]) else acc1
  let acc3 := cidCheck providedIds out.citationsUsed.dedup acc2
  bannedCheck out.narrative banned acc3

theorem capCheck_eq (allowed : List String) : ∀ l acc, capCheck allowed l acc =
    (acc.1 && l.all (fun t => decide (t ∈ allowed ∨ t = "I" ∨ t = "PS1")),
     acc.2 ++ (l.filter (fun t => ! decide (t ∈ allowed ∨ t = "I" ∨ t = "PS1"))).map
       (fun t => "unallowed token: " ++ t)) := by
  intro l
  induction l with
  | nil => intro acc; simp [capCheck]
  | cons t ts ih =>
    intro acc
    simp only [capCheck]
    by_cases hp : t ∈ allowed ∨ t = "I" ∨ t = "PS1"
    · have hf : (decide (t ∈ allowed) || (decide (t = "I") || decide (t = "PS1"))) = true := by
        rcases hp with h | h | h <;> simp [h]
      have hcond : ¬(t ∉ allowed ∧ ¬t = "I" ∧ ¬t = "PS1") := by tauto
      rw [if_pos hp, ih]
      simp [List.filter_cons, hf, hcond]
    · have hcond : t ∉ allowed ∧ ¬t = "I" ∧ ¬t = "PS1" := by tauto
      have hf : (decide (t ∈ allowed) || (decide (t = "I") || decide (t = "PS1"))) = false := by
        simp [hcond.1, hcond.2.1, hcond.2.2]
      rw [if_neg hp, ih]
      simp [List.filter_cons, hf, hcond]

theorem cidCheck_eq (validIds : List String) : ∀ l acc, cidCheck validIds l acc =
    (acc.1 && l.all (fun c => decide (c ∈ validIds)),
     acc.2 ++ (l.filter (fun c => ! decide (c ∈ validIds))).map
       (fun c => "bad citation id: " ++ c)) := by
  intro l
  induction l with
  | nil => intro acc; simp [cidCheck]
  | cons c cs ih =>
    intro acc
    simp only [cidCheck]
    by_cases hp : c ∈ validIds
    · rw [if_pos hp, ih]
      simp [hp, List.filter_cons]
    · rw [if_neg hp, ih]
      simp [hp, List.filter_cons]

theorem bannedCheck_eq (narr : String) : ∀ l acc, bannedCheck narr l acc =
    (acc.1 && l.all (fun b => ! occursWhole narr b),
     acc.2 ++ (l.filter (fun b => occursWhole narr b)).map
       (fun b => "unrepresentable term present: " ++ b)) := by
  intro l
  induction l with
  | nil => intro acc; simp [bannedCheck]
  | cons b bs ih =>
    intro acc
    simp only [bannedCheck]
    by_cases hp : occursWhole narr b
    · rw [if_pos hp, ih]
      simp [hp, List.filter_cons]
    · rw [if_neg (by simpa using hp), ih]
      simp [hp, List.filter_cons, Bool.eq_false_iff.mpr hp]

end PS1

namespace PS1

/-- Claim C4: the lint verdict is valid iff no violation fired among the four
checks (capitalized token outside the allowed set and exemptions, empty
citation list, citation id outside the provided list, whole-word banned
term), and every violation contributes its issue line — nothing
short-circuits. -/
theorem C4_lint_valid_iff (out : LLMOut) (allowed providedIds banned : List String) :
    ((lintOutput out allowed providedIds banned).1 = true ↔
      ((∀ t ∈ capTokens out.narrative, t ∈ allowed ∨ t = "I" ∨ t = "PS1") ∧
        out.citationsUsed ≠ [] ∧
        (∀ c ∈ out.citationsUsed, c ∈ providedIds) ∧
        (∀ b ∈ banned, occursWhole out.narrative b = false))) ∧
    ((lintOutput out allowed providedIds banned).1 = true ↔
      (lintOutput out allowed providedIds banned).2 = []) ∧
    (∀ t ∈ capTokens out.narrative, ¬(t ∈ allowed ∨ t = "I" ∨ t = "PS1") →
      ("unallowed token: " ++ t) ∈ (lintOutput out allowed providedIds banned).2) ∧
    (out.citationsUsed = [] →
      "no citations used" ∈ (lintOutput out allowed providedIds banned).2) ∧
    (∀ c ∈ out.citationsUsed, c ∉ providedIds →
      ("bad citation id: " ++ c) ∈ (lintOutput out allowed providedIds banned).2) ∧
    (∀ b ∈ banned, occursWhole out.narrative b = true →
      ("unrepresentable term present: " ++ b) ∈ (lintOutput out allowed providedIds banned).2) := by
  have hA_iff : ((capTokens out.narrative).dedup.all
      (fun t => decide (t ∈ allowed ∨ t = "I" ∨ t = "PS1")) = true) ↔
      (∀ t ∈ capTokens out.narrative, t ∈ allowed ∨ t = "I" ∨ t = "PS1") := by
    rw [List.all_eq_true]
    constructor
    · intro h t ht
      exact of_decide_eq_true (h t (List.mem_dedup.mpr ht))
    · intro h t ht
      exact decide_eq_true (h t (List.mem_dedup.mp ht))
  have hA_nil : (((capTokens out.narrative).dedup.filter
      (fun t => ! decide (t ∈ allowed ∨ t = "I" ∨ t = "PS1"))).map
      (fun t => "unallowed token: " ++ t) = []) ↔
      (∀ t ∈ capTokens out.narrative, t ∈ allowed ∨ t = "I" ∨ t = "PS1") := by
    rw [List.map_eq_nil_iff, List.filter_eq_nil_iff]
    constructor
    · intro h t ht
      have h2 := h t (List.mem_dedup.mpr ht)
      by_contra hcon
      exact h2 (by simp [hcon])
    · intro h t ht
      have := h t (List.mem_dedup.mp ht)
      simp [this]
  have hA_mem : ∀ t ∈ capTokens out.narrative, ¬(t ∈ allowed ∨ t = "I" ∨ t = "PS1") →
      ("unallowed token: " ++ t) ∈ ((capTokens out.narrative).dedup.filter
        (fun t => ! decide (t ∈ allowed ∨ t = "I" ∨ t = "PS1"))).map
        (fun t => "unallowed token: " ++ t) := by
    intro t ht hviol
    exact List.mem_map.mpr ⟨t,
      List.mem_filter.mpr ⟨List.mem_dedup.mpr ht, by simp [hviol]⟩, rfl⟩
  have hC_iff : (out.citationsUsed.dedup.all
      (fun c => decide (c ∈ providedIds)) = true) ↔
      (∀ c ∈ out.citationsUsed, c ∈ providedIds) := by
    rw [List.all_eq_true]
    constructor
    · intro h c hc
      exact of_decide_eq_true (h c (List.mem_dedup.mpr hc))
    · intro h c hc
      exact decide_eq_true (h c (List.mem_dedup.mp hc))
  have hC_nil : ((out.citationsUsed.dedup.filter
      (fun c => ! decide (c ∈ providedIds))).map
      (fun c => "bad citation id: " ++ c) = []) ↔
      (∀ c ∈ out.citationsUsed, c ∈ providedIds) := by
    rw [List.map_eq_nil_iff, List.filter_eq_nil_iff]
    constructor
    · intro h c hc
      have := h c (List.mem_dedup.mpr hc)
      simpa using this
    · intro h c hc
      simpa using h c (List.mem_dedup.mp hc)
  have hC_mem : ∀ c ∈ out.citationsUsed, c ∉ providedIds →
      ("bad citation id: " ++ c) ∈ ((out.citationsUsed.dedup.filter
        (fun c => ! decide (c ∈ providedIds))).map
        (fun c => "bad citation id: " ++ c)) := by
    intro c hc hviol
    exact List.mem_map.mpr ⟨c,
      List.mem_filter.mpr ⟨List.mem_dedup.mpr hc, by simp [hviol]⟩, rfl⟩
  have hB_iff : (banned.all (fun b => ! occursWhole out.narrative b) = true) ↔
      (∀ b ∈ banned, occursWhole out.narrative b = false) := by
    rw [List.all_eq_true]
    constructor
    · intro h b hb
      simpa using h b hb
    · intro h b hb
      simpa using h b hb
  have hB_nil : ((banned.filter (fun b => occursWhole out.narrative b)).map
      (fun b => "unrepresentable term present: " ++ b) = []) ↔
      (∀ b ∈ banned, occursWhole out.narrative b = false) := by
    rw [List.map_eq_nil_iff, List.filter_eq_nil_iff]
    constructor
    · intro h b hb
      simpa using h b hb
    · intro h b hb
      simp [h b hb]
  have hB_mem : ∀ b ∈ banned, occursWhole out.narrative b = true →
      ("unrepresentable term present: " ++ b) ∈
        ((banned.filter (fun b => occursWhole out.narrative b)).map
          (fun b => "unrepresentable term present: " ++ b)) := by
    intro b hb hviol
    exact List.mem_map.mpr ⟨b, List.mem_filter.mpr ⟨hb, hviol⟩, rfl⟩
  by_cases hcd : out.citationsUsed.dedup = []
  · have hc0 : out.citationsUsed = [] := (List.dedup_eq_nil _).mp hcd
    have hres : lintOutput out allowed providedIds banned =
        (false,
          ((((capTokens out.narrative).dedup.filter
              (fun t => ! decide (t ∈ allowed ∨ t = "I" ∨ t = "PS1"))).map
            (fun t => "unallowed token: " ++ t) ++ ["no citations used"]) ++ []) ++
          (banned.filter (fun b => occursWhole out.narrative b)).map
            (fun b => "unrepresentable term present: " ++ b)) := by
      simp only [lintOutput, capCheck_eq, cidCheck_eq, bannedCheck_eq, hcd,
        if_pos, List.all_nil, List.filter_nil, List.map_nil,
        Bool.true_and, Bool.and_true, Bool.false_and, List.nil_append]
    have hres1 : (lintOutput out allowed providedIds banned).1 = false := by
      rw [hres]
    have hres2 : (lintOutput out allowed providedIds banned).2 =
        ((((capTokens out.narrative).dedup.filter
            (fun t => ! decide (t ∈ allowed ∨ t = "I" ∨ t = "PS1"))).map
          (fun t => "unallowed token: " ++ t) ++ ["no citations used"]) ++ []) ++
        (banned.filter (fun b => occursWhole out.narrative b)).map
          (fun b => "unrepresentable term present: " ++ b) := by
      rw [hres]
    have hmid : "no citations used" ∈ (lintOutput out allowed providedIds banned).2 := by
      rw [hres2]
      refine List.mem_append.mpr (Or.inl ?_)
      refine List.mem_append.mpr (Or.inl ?_)
      exact List.mem_append.mpr (Or.inr (List.mem_singleton.mpr rfl))
    refine ⟨?_, ?_, ?_, ?_, ?_, ?_⟩
    · rw [hres1]
      simp [hc0]
    · rw [hres1]
      constructor
      · intro h; exact absurd h (by simp)
      · intro h
        exact absurd h (List.ne_nil_of_mem hmid)
    · intro t ht hviol
      rw [hres2]
      refine List.mem_append.mpr (Or.inl ?_)
      refine List.mem_append.mpr (Or.inl ?_)
      exact List.mem_append.mpr (Or.inl (hA_mem t ht hviol))
    · intro _
      exact hmid
    · intro c hc _
      rw [hc0] at hc
      exact absurd hc (List.not_mem_nil c)
    · intro b hb hviol
      rw [hres2]
      exact List.mem_append.mpr (Or.inr (hB_mem b hb hviol))
  · have hc0 : out.citationsUsed ≠ [] := by
      intro h
      exact hcd (by rw [h]; rfl)
    have hres : lintOutput out allowed providedIds banned =
        (((capTokens out.narrative).dedup.all
            (fun t => decide (t ∈ allowed ∨ t = "I" ∨ t = "PS1")) &&
          out.citationsUsed.dedup.all (fun c => decide (c ∈ providedIds))) &&
          banned.all (fun b => ! occursWhole out.narrative b),
          ((((capTokens out.narrative).dedup.filter
              (fun t => ! decide (t ∈ allowed ∨ t = "I" ∨ t = "PS1"))).map
            (fun t => "unallowed token: " ++ t)) ++
           ((out.citationsUsed.dedup.filter
              (fun c => ! decide (c ∈ providedIds))).map
            (fun c => "bad citation id: " ++ c))) ++
          (banned.filter (fun b => occursWhole out.narrative b)).map
            (fun b => "unrepresentable term present: " ++ b)) := by
      simp only [lintOutput, capCheck_eq, cidCheck_eq, bannedCheck_eq,
        if_neg hcd, Bool.true_and, List.nil_append]
    have hres1 : (lintOutput out allowed providedIds banned).1 =
        (((capTokens out.narrative).dedup.all
            (fun t => decide (t ∈ allowed ∨ t = "I" ∨ t = "PS1")) &&
          out.citationsUsed.dedup.all (fun c => decide (c ∈ providedIds))) &&
          banned.all (fun b => ! occursWhole out.narrative b)) := by
      rw [hres]
    have hres2 : (lintOutput out allowed providedIds banned).2 =
        ((((capTokens out.narrative).dedup.filter
            (fun t => ! decide (t ∈ allowed ∨ t = "I" ∨ t = "PS1"))).map
          (fun t => "unallowed token: " ++ t)) ++
         ((out.citationsUsed.dedup.filter
            (fun c => ! decide (c ∈ providedIds))).map
          (fun c => "bad citation id: " ++ c))) ++
        (banned.filter (fun b => occursWhole out.narrative b)).map
          (fun b => "unrepresentable term present: " ++ b) := by
      rw [hres]
    refine ⟨?_, ?_, ?_, ?_, ?_, ?_⟩
    · rw [hres1, Bool.and_eq_true, Bool.and_eq_true, hA_iff, hC_iff, hB_iff]
      constructor
      · rintro ⟨⟨h1, h2⟩, h3⟩
        exact ⟨h1, hc0, h2, h3⟩
      · rintro ⟨h1, _, h2, h3⟩
        exact ⟨⟨h1, h2⟩, h3⟩
    · rw [hres1, hres2, Bool.and_eq_true, Bool.and_eq_true, hA_iff, hC_iff, hB_iff,
        List.append_eq_nil, List.append_eq_nil, hA_nil, hC_nil, hB_nil]
    · intro t ht hviol
      rw [hres2]
      refine List.mem_append.mpr (Or.inl ?_)
      exact List.mem_append.mpr (Or.inl (hA_mem t ht hviol))
    · intro h
      exact absurd h hc0
    · intro c hc hviol
      rw [hres2]
      refine List.mem_append.mpr (Or.inl ?_)
      exact List.mem_append.mpr (Or.inr (hC_mem c hc hviol))
    · intro b hb hviol
      rw [hres2]
      exact List.mem_append.mpr (Or.inr (hB_mem b hb hviol))

/-- Witness for C4: a narrative with one unallowed token, an empty citation
list, and one banned-term hit produces the corresponding issue lines. -/
theorem C4_witness :
    ("unallowed token: Foo") ∈
      (lintOutput ⟨"Foo bar", [], [], none⟩ [] ["p1"] ["bar"]).2 ∧
    "no citations used" ∈
      (lintOutput ⟨"Foo bar", [], [], none⟩ [] ["p1"] ["bar"]).2 ∧
    ("unrepresentable term present: bar") ∈
      (lintOutput ⟨"Foo bar", [], [], none⟩ [] ["p1"] ["bar"]).2 :=
  ⟨(C4_lint_valid_iff ⟨"Foo bar", [], [], none⟩ [] ["p1"] ["bar"]).2.2.1
      "Foo" (by decide) (by decide),
    (C4_lint_valid_iff ⟨"Foo bar", [], [], none⟩ [] ["p1"] ["bar"]).2.2.2.1 rfl,
    (C4_lint_valid_iff ⟨"Foo bar", [], [], none⟩ [] ["p1"] ["bar"]).2.2.2.2.2
      "bar" (by decide) (by decide)⟩

end PS1

namespace PS1

/-! ## Citation repair (run_narrative.py `ask_lmstudio`, lines 142-153) -/

/-- A character of the inline-citation id class `[a-zA-Z0-9_.-]`. -/
def isCidChar (c : Char) : Bool :=
  c.isUpper || c.isLower || c.isDigit || c == '_' || c == '.' || c == '-'

/-- Left-to-right scan of `re.sub(r"\[([a-zA-Z0-9_.-]+)\]", repl, s)` where
the replacement keeps a marker whose id is in `provided` and deletes any
other marker. `some accRev` means the scan is inside a candidate marker,
having consumed `[` and the reversed id characters `accRev`; a candidate
that cannot be completed is emitted verbatim and the scan resumes, exactly
as the regex engine advances past a failed match start. -/
def stripGo (provided : List String) : Option (List Char) → List Char → List Char
  | none, [] => []
  | some accRev, [] => '[' :: accRev.reverse
  | none, c :: r =>
    if c = '[' then stripGo provided (some []) r
    else c :: stripGo provided none r
  | some accRev, c :: r =>
    if isCidChar c then stripGo provided (some (c :: accRev)) r
    else if c = ']' then
      if accRev.isEmpty then '[' :: ']' :: stripGo provided none r
      else if String.mk accRev.reverse ∈ provided then
        '[' :: (accRev.reverse ++ ']' :: stripGo provided none r)
      else stripGo provided none r
    else if c = '[' then
      ('[' :: accRev.reverse) ++ stripGo provided (some []) r
    else
      ('[' :: accRev.reverse) ++ (c :: stripGo provided none r)

/-- Strip the bracket-citation markers whose id is not in `provided`. -/
def stripBadMarkers (provided : List String) (s : String) : String :=
  String.mk (stripGo provided none s.toList)

/-- The guardrail of `ask_lmstudio`: filter the claimed citations down to
the provided ids, and — only when some ids were provided — strip unknown
inline markers from the narrative. -/
def repairOutput (out : LLMOut) (providedIds : List String) : LLMOut :=
  { out with
    citationsUsed := out.citationsUsed.filter (fun c => decide (c ∈ providedIds))
    narrative := if providedIds.isEmpty then out.narrative
      else stripBadMarkers providedIds out.narrative }

theorem stripGo_no_bracket (provided : List String) :
    ∀ pre rest, (∀ c ∈ pre, ¬ c = '[') →
      stripGo provided none (pre ++ rest) = pre ++ stripGo provided none rest := by
  intro pre
  induction pre with
  | nil => intro rest _; rfl
  | cons c cs ih =>
    intro rest h
    simp only [List.cons_append, stripGo, List.append_eq]
    rw [if_neg (h c (List.mem_cons_self _ _)),
      ih rest (fun d hd => h d (List.mem_cons_of_mem _ hd))]

theorem stripGo_pending_close (provided : List String) (b : List Char) :
    ∀ idrest accRev, (∀ c ∈ idrest, isCidChar c = true) →
      stripGo provided (some accRev) (idrest ++ ']' :: b) =
        (if accRev.reverse ++ idrest = [] then
          '[' :: ']' :: stripGo provided none b
         else if String.mk (accRev.reverse ++ idrest) ∈ provided then
          '[' :: ((accRev.reverse ++ idrest) ++ ']' :: stripGo provided none b)
         else stripGo provided none b) := by
  intro idrest
  induction idrest with
  | nil =>
    intro accRev _
    simp only [List.nil_append, List.append_nil, stripGo, List.append_eq]
    rw [if_neg (show ¬ isCidChar ']' = true by decide)]
    simp only [if_true]
    by_cases hA : accRev = []
    · subst hA
      simp
    · rw [if_neg (show ¬ accRev.isEmpty = true by
          simpa [List.isEmpty_iff] using hA),
        if_neg (show ¬ accRev.reverse = [] by
          simpa [List.reverse_eq_nil_iff] using hA)]
  | cons c idc ih =>
    intro accRev h
    simp only [List.cons_append, stripGo, List.append_eq]
    rw [if_pos (h c (List.mem_cons_self _ _)),
      ih (c :: accRev) (fun d hd => h d (List.mem_cons_of_mem _ hd))]
    have hrw : (c :: accRev).reverse ++ idc = accRev.reverse ++ c :: idc := by
      simp
    rw [hrw]

theorem stripGo_marker (provided : List String) (idC b : List Char)
    (hne : idC ≠ []) (hcid : ∀ c ∈ idC, isCidChar c = true) :
    stripGo provided none ('[' :: (idC ++ ']' :: b)) =
      (if String.mk idC ∈ provided then
        '[' :: (idC ++ ']' :: stripGo provided none b)
       else stripGo provided none b) := by
  simp only [stripGo, List.append_eq, if_true]
  rw [stripGo_pending_close provided b idC [] hcid]
  simp only [List.reverse_nil, List.nil_append]
  rw [if_neg hne]

end PS1

namespace PS1

theorem bad_ne_unallowed (c t : String) :
    ¬ ("bad citation id: " ++ c = "unallowed token: " ++ t) := by
  intro h
  have hb : ("bad citation id: " ++ c).data.head? = some 'b' := rfl
  rw [h] at hb
  have hu : ("unallowed token: " ++ t).data.head? = some 'u' := rfl
  rw [hu] at hb
  exact absurd hb (by decide)

theorem bad_ne_nocit (c : String) :
    ¬ ("bad citation id: " ++ c = "no citations used") := by
  intro h
  have hb : ("bad citation id: " ++ c).data.head? = some 'b' := rfl
  rw [h] at hb
  have hn : ("no citations used" : String).data.head? = some 'n' := rfl
  rw [hn] at hb
  exact absurd hb (by decide)

theorem bad_ne_banned (c t : String) :
    ¬ ("bad citation id: " ++ c = "unrepresentable term present: " ++ t) := by
  intro h
  have hb : ("bad citation id: " ++ c).data.head? = some 'b' := rfl
  rw [h] at hb
  have hu : ("unrepresentable term present: " ++ t).data.head? = some 'u' := rfl
  rw [hu] at hb
  exact absurd hb (by decide)

/-- Claim C5, amended: the repair step always drops claimed citation ids not
in the provided list, and the subsequent lint always reports no
bad-citation-id violation; the stripping of inline `[id]` markers with
unknown ids from the narrative — leaving the surrounding text intact —
happens only when the provided list is nonempty. (When the provided list is
empty the code skips the narrative stripping; see the counterexample.) -/
theorem C5_repair_guardrail (out : LLMOut) (providedIds : List String) :
    (∀ c, c ∈ (repairOutput out providedIds).citationsUsed ↔
      (c ∈ out.citationsUsed ∧ c ∈ providedIds)) ∧
    (providedIds ≠ [] →
      ∀ a id b, out.narrative.toList = a ++ '[' :: (id ++ ']' :: b) →
      (∀ c ∈ a, ¬ c = '[') → id ≠ [] → (∀ c ∈ id, isCidChar c = true) →
      (repairOutput out providedIds).narrative = String.mk (a ++
        (if String.mk id ∈ providedIds then
          '[' :: (id ++ ']' :: stripGo providedIds none b)
         else stripGo providedIds none b))) ∧
    (∀ allowed banned cid, ("bad citation id: " ++ cid) ∉
      (lintOutput (repairOutput out providedIds) allowed providedIds banned).2) := by
  refine ⟨?_, ?_, ?_⟩
  · intro c
    show c ∈ out.citationsUsed.filter (fun c => decide (c ∈ providedIds)) ↔ _
    rw [List.mem_filter, decide_eq_true_eq]
  · intro hne a id b hdecomp ha hid hcid
    show (if providedIds.isEmpty then out.narrative
      else stripBadMarkers providedIds out.narrative) = _
    rw [if_neg (by simpa [List.isEmpty_iff] using hne), stripBadMarkers, hdecomp,
      stripGo_no_bracket providedIds a _ ha,
      stripGo_marker providedIds id b hid hcid]
  · intro allowed banned cid hmem
    have hfilter : ((repairOutput out providedIds).citationsUsed.dedup.filter
        (fun c => ! decide (c ∈ providedIds))) = [] := by
      rw [List.filter_eq_nil_iff]
      intro x hx
      have hx2 : x ∈ out.citationsUsed.filter (fun c => decide (c ∈ providedIds)) :=
        List.mem_dedup.mp hx
      have hx3 := (List.mem_filter.mp hx2).2
      simp [hx3]
    by_cases hcd : (repairOutput out providedIds).citationsUsed.dedup = []
    · have hres : (lintOutput (repairOutput out providedIds) allowed providedIds banned).2 =
          ((((capTokens (repairOutput out providedIds).narrative).dedup.filter
              (fun t => ! decide (t ∈ allowed ∨ t = "I" ∨ t = "PS1"))).map
            (fun t => "unallowed token: " ++ t) ++ ["no citations used"]) ++ []) ++
          (banned.filter (fun b => occursWhole (repairOutput out providedIds).narrative b)).map
            (fun b => "unrepresentable term present: " ++ b) := by
        simp only [lintOutput, capCheck_eq, cidCheck_eq, bannedCheck_eq, hcd,
          if_pos, List.all_nil, List.filter_nil, List.map_nil,
          Bool.true_and, Bool.and_true, Bool.false_and, List.nil_append]
      rw [hres] at hmem
      rcases List.mem_append.mp hmem with h1 | h1
      · rcases List.mem_append.mp h1 with h2 | h2
        · rcases List.mem_append.mp h2 with h3 | h3
          · obtain ⟨t, _, ht⟩ := List.mem_map.mp h3
            exact bad_ne_unallowed cid t ht.symm
          · exact bad_ne_nocit cid (List.mem_singleton.mp h3)
        · exact absurd h2 (List.not_mem_nil _)
      · obtain ⟨t, _, ht⟩ := List.mem_map.mp h1
        exact bad_ne_banned cid t ht.symm
    · have hres : (lintOutput (repairOutput out providedIds) allowed providedIds banned).2 =
          ((((capTokens (repairOutput out providedIds).narrative).dedup.filter
              (fun t => ! decide (t ∈ allowed ∨ t = "I" ∨ t = "PS1"))).map
            (fun t => "unallowed token: " ++ t)) ++
           (((repairOutput out providedIds).citationsUsed.dedup.filter
              (fun c => ! decide (c ∈ providedIds))).map
            (fun c => "bad citation id: " ++ c))) ++
          (banned.filter (fun b => occursWhole (repairOutput out providedIds).narrative b)).map
            (fun b => "unrepresentable term present: " ++ b) := by
        simp only [lintOutput, capCheck_eq, cidCheck_eq, bannedCheck_eq,
          if_neg hcd, Bool.true_and, List.nil_append]
      rw [hres, hfilter] at hmem
      rcases List.mem_append.mp hmem with h1 | h1
      · rcases List.mem_append.mp h1 with h2 | h2
        · obtain ⟨t, _, ht⟩ := List.mem_map.mp h2
          exact bad_ne_unallowed cid t ht.symm
        · simp at h2
      · obtain ⟨t, _, ht⟩ := List.mem_map.mp h1
        exact bad_ne_banned cid t ht.symm

/-- Generator output used by the C5 counterexample: a marker with an unknown
id, and an empty provided-id list. -/
def outCex5 : LLMOut := ⟨"[xyz]", [], [], none⟩

/-- Counterexample to C5 as stated: with an empty provided identifier list
the repair step leaves the unknown marker `[xyz]` in the narrative instead
of stripping it (the code strips only when `provided_ids` is truthy). -/
theorem C5_counterexample :
    (repairOutput outCex5 []).narrative = "[xyz]" ∧
    ¬ (("[xyz]" : String) = "") :=
  ⟨rfl, by decide⟩

/-- Generator output used by the C5 witness. -/
def out5 : LLMOut := ⟨"x[zz]y", ["p1", "zz"], [], none⟩

/-- Witness for C5 (amended) at a concrete output, both with a nonempty
provided list (exercising the stripping clause) and with the empty provided
list (exercising the unconditional drop and lint clauses there). -/
theorem C5_witness :
    (["p1"] : List String) ≠ [] ∧
    ("p1" ∈ (repairOutput out5 ["p1"]).citationsUsed ↔
      ("p1" ∈ out5.citationsUsed ∧ "p1" ∈ (["p1"] : List String))) ∧
    (repairOutput out5 ["p1"]).narrative = String.mk (['x'] ++
      (if String.mk ['z', 'z'] ∈ (["p1"] : List String) then
        '[' :: (['z', 'z'] ++ ']' :: stripGo ["p1"] none ['y'])
       else stripGo ["p1"] none ['y'])) ∧
    ("bad citation id: " ++ "zz") ∉
      (lintOutput (repairOutput out5 ["p1"]) [] ["p1"] []).2 ∧
    ("zz" ∈ (repairOutput out5 []).citationsUsed ↔
      ("zz" ∈ out5.citationsUsed ∧ "zz" ∈ ([] : List String))) ∧
    ("bad citation id: " ++ "zz") ∉
      (lintOutput (repairOutput out5 []) [] [] []).2 :=
  ⟨by decide,
    (C5_repair_guardrail out5 ["p1"]).1 "p1",
    (C5_repair_guardrail out5 ["p1"]).2.1 (by decide) ['x'] ['z', 'z'] ['y']
      rfl (by decide) (by decide) (by decide),
    (C5_repair_guardrail out5 ["p1"]).2.2 [] [] "zz",
    (C5_repair_guardrail out5 []).1 "zz",
    (C5_repair_guardrail out5 []).2.2 [] [] "zz"⟩

end PS1

namespace PS1

/-! ## Generation-service response parsing (run_narrative.py `ask_lmstudio`,
lines 129-140). `json.loads` is modeled by a strict JSON parser over the
core grammar (objects, arrays, strings with escapes, numbers, literals),
rejecting trailing non-whitespace like the Python function. -/

/-- A JSON value; numbers keep their lexeme. -/
inductive JVal where
  | jnull : JVal
  | jbool : Bool → JVal
  | jnum : String → JVal
  | jstr : String → JVal
  | jarr : List JVal → JVal
  | jobj : List (String × JVal) → JVal

/-- JSON insignificant whitespace. -/
def isJsonWs (c : Char) : Bool :=
  c == ' ' || c == '\t' || c == '\n' || c == '\r'

def skipWs (l : List Char) : List Char := l.dropWhile isJsonWs

def hexVal (c : Char) : Option Nat :=
  if c.isDigit then some (c.toNat - '0'.toNat)
  else if decide ('a' ≤ c ∧ c ≤ 'f') then some (c.toNat - 'a'.toNat + 10)
  else if decide ('A' ≤ c ∧ c ≤ 'F') then some (c.toNat - 'A'.toNat + 10)
  else none

def escChar (c : Char) : Option Char :=
  if c = '"' then some '"'
  else if c = '\\' then some '\\'
  else if c = '/' then some '/'
  else if c = 'b' then some (Char.ofNat 8)
  else if c = 'f' then some (Char.ofNat 12)
  else if c = 'n' then some '\n'
  else if c = 'r' then some '\r'
  else if c = 't' then some '\t'
  else none

/-- JSON string body after the opening quote, with escapes. -/
def pStrGo (acc : List Char) : List Char → Option (String × List Char)
  | [] => none
  | c :: r =>
    if c = '"' then some (String.mk acc.reverse, r)
    else if c = '\\' then
      match r with
      | [] => none
      | e :: r2 =>
        match escChar e with
        | some ec => pStrGo (ec :: acc) r2
        | none =>
          if e = 'u' then
            match r2 with
            | h1 :: h2 :: h3 :: h4 :: r3 =>
              match hexVal h1, hexVal h2, hexVal h3, hexVal h4 with
              | some a, some b, some c2, some d =>
                pStrGo (Char.ofNat (((a * 16 + b) * 16 + c2) * 16 + d) :: acc) r3
              | _, _, _, _ => none
            | _ => none
          else none
    else pStrGo (c :: acc) r

/-- Fraction part `(.digits)?` of a JSON number. -/
def pFrac (l : List Char) : Option (List Char × List Char) :=
  match l with
  | '.' :: r =>
    match r.takeWhile Char.isDigit with
    | [] => none
    | ds => some ('.' :: ds, r.dropWhile Char.isDigit)
  | _ => some ([], l)

/-- Exponent part `([eE][+-]?digits)?` of a JSON number. -/
def pExp (l : List Char) : Option (List Char × List Char) :=
  match l with
  | e :: r =>
    if e = 'e' ∨ e = 'E' then
      match (match r with
        | '+' :: rr => (['+'], rr)
        | '-' :: rr => (['-'], rr)
        | _ => (([] : List Char), r)) with
      | (sg, r2) =>
        match r2.takeWhile Char.isDigit with
        | [] => none
        | ds => some (e :: (sg ++ ds), r2.dropWhile Char.isDigit)
    else some ([], e :: r)
  | [] => some ([], [])

def pNumTail (intPart : List Char) (l : List Char) : Option (String × List Char) :=
  match pFrac l with
  | none => none
  | some (fr, l2) =>
    match pExp l2 with
    | none => none
    | some (ex, l3) => some (String.mk (intPart ++ fr ++ ex), l3)

/-- Integer part: `0` or a nonzero digit followed by digits. -/
def pNumBody (sgn : List Char) (l : List Char) : Option (String × List Char) :=
  match l with
  | [] => none
  | c :: r =>
    if c = '0' then pNumTail (sgn ++ [c]) r
    else if c.isDigit then
      pNumTail (sgn ++ c :: r.takeWhile Char.isDigit) (r.dropWhile Char.isDigit)
    else none

def pNumber (l : List Char) : Option (String × List Char) :=
  match l with
  | '-' :: r => pNumBody ['-'] r
  | _ => pNumBody [] l

mutual
/-- A JSON value, fuel-indexed. -/
def pVal : Nat → List Char → Option (JVal × List Char)
  | 0, _ => none
  | n + 1, l =>
    match skipWs l with
    | [] => none
    | c :: r =>
      if c = '\x7b' then
        match skipWs r with
        | '\x7d' :: r2 => some (.jobj [], r2)
        | r2 => pMembers n r2 []
      else if c = '[' then
        match skipWs r with
        | ']' :: r2 => some (.jarr [], r2)
        | r2 => pElems n r2 []
      else if c = '"' then
        match pStrGo [] r with
        | some (s, r2) => some (.jstr s, r2)
        | none => none
      else if c = 't' then
        match r with
        | 'r' :: 'u' :: 'e' :: r2 => some (.jbool true, r2)
        | _ => none
      else if c = 'f' then
        match r with
        | 'a' :: 'l' :: 's' :: 'e' :: r2 => some (.jbool false, r2)
        | _ => none
      else if c = 'n' then
        match r with
        | 'u' :: 'l' :: 'l' :: r2 => some (.jnull, r2)
        | _ => none
      else
        match pNumber (c :: r) with
        | some (s, r2) => some (.jnum s, r2)
        | none => none

/-- Object members after the opening brace (nonempty case). -/
def pMembers : Nat → List Char → List (String × JVal) → Option (JVal × List Char)
  | 0, _, _ => none
  | n + 1, l, acc =>
    match skipWs l with
    | '"' :: r =>
      match pStrGo [] r with
      | none => none
      | some (k, r2) =>
        match skipWs r2 with
        | ':' :: r3 =>
          match pVal n r3 with
          | none => none
          | some (v, r4) =>
            match skipWs r4 with
            | ',' :: r5 => pMembers n r5 (acc ++ [(k, v)])
            | '\x7d' :: r5 => some (.jobj (acc ++ [(k, v)]), r5)
            | _ => none
        | _ => none
    | _ => none

/-- Array elements after the opening bracket (nonempty case). -/
def pElems : Nat → List Char → List JVal → Option (JVal × List Char)
  | 0, _, _ => none
  | n + 1, l, acc =>
    match pVal n l with
    | none => none
    | some (v, r) =>
      match skipWs r with
      | ',' :: r2 => pElems n r2 (acc ++ [v])
      | ']' :: r2 => some (.jarr (acc ++ [v]), r2)
      | _ => none
end

/-- `json.loads(s)`: parse one JSON value and reject trailing garbage. -/
def jsonParse (s : String) : Option JVal :=
  match pVal (s.toList.length + 1) s.toList with
  | some (v, rest) => if (skipWs rest).isEmpty then some v else none
  | none => none

/-- The characters after the first `⦃` of the response, if any
(`re.search(r"\x7b.*\x7d", raw, re.S)` anchors there). -/
def afterFirstBrace : List Char → Option (List Char)
  | [] => none
  | c :: r => if c = '\x7b' then some r else afterFirstBrace r

/-- The prefix of `l` ending at its last `⦄`, if any. -/
def upToLastBrace (l : List Char) : Option (List Char) :=
  match l.reverse.dropWhile (fun c => ! (c == '\x7d')) with
  | [] => none
  | u => some u.reverse

/-- `re.search(r"\x7b.*\x7d", raw, re.S)` and `m.group(0)`: the greedy match
runs from the first opening brace to the last closing brace of the string. -/
def greedySpan (s : String) : Option String :=
  match afterFirstBrace s.toList with
  | none => none
  | some r =>
    match upToLastBrace r with
    | none => none
    | some u => some (String.mk ('\x7b' :: u))

/-- The empty-output dictionary built by the recovery branches. -/
def emptyJ : JVal :=
  .jobj [("narrative", .jstr ""), ("citationsUsed", .jarr []),
    ("tokensUsed", .jarr [])]

/-- Lines 129-140 of `ask_lmstudio`: direct parse, else parse the greedy
brace span, else an empty result with a parse-error marker (the Python
marker for the third branch is `str(e)`; it is modeled by a fixed tag). -/
def parseLLMContent (raw : String) : JVal × Option String :=
  match jsonParse raw with
  | some v => (v, none)
  | none =>
    match greedySpan raw with
    | none => (emptyJ, some "no-json-object-found")
    | some s =>
      match jsonParse s with
      | some v => (v, none)
      | none => (emptyJ, some "json-decode-error")

end PS1

namespace PS1

theorem afterFirstBrace_append :
    ∀ pre rest, (∀ c ∈ pre, ¬ c = '\x7b') →
      afterFirstBrace (pre ++ '\x7b' :: rest) = some rest := by
  intro pre
  induction pre with
  | nil =>
    intro rest _
    simp only [List.nil_append, afterFirstBrace, if_pos]
  | cons c cs ih =>
    intro rest h
    simp only [List.cons_append, afterFirstBrace, List.append_eq]
    rw [if_neg (h c (List.mem_cons_self _ _)),
      ih rest (fun d hd => h d (List.mem_cons_of_mem _ hd))]

theorem dropWhile_all_append {p : Char → Bool} :
    ∀ l₁ c l₂, (∀ x ∈ l₁, p x = true) → p c = false →
      List.dropWhile p (l₁ ++ c :: l₂) = c :: l₂ := by
  intro l₁
  induction l₁ with
  | nil =>
    intro c l₂ _ hc
    rw [List.nil_append, List.dropWhile_cons_of_neg (by rw [hc]; decide)]
  | cons a l₁ ih =>
    intro c l₂ h hc
    rw [List.cons_append,
      List.dropWhile_cons_of_pos (h a (List.mem_cons_self _ _)),
      ih c l₂ (fun x hx => h x (List.mem_cons_of_mem _ hx)) hc]

theorem upToLastBrace_eq (mid post : List Char)
    (hpost : ∀ c ∈ post, ¬ c = '\x7d') :
    upToLastBrace (mid ++ '\x7d' :: post) = some (mid ++ ['\x7d']) := by
  rw [upToLastBrace]
  have hrev : (mid ++ '\x7d' :: post).reverse =
      post.reverse ++ '\x7d' :: mid.reverse := by
    simp
  rw [hrev, dropWhile_all_append post.reverse '\x7d' mid.reverse
    (fun x hx => by
      have := hpost x (List.mem_reverse.mp hx)
      simpa using this)
    (by decide)]
  simp

/-- Claim C8, amended: when the response is not directly parseable, the
boundary takes the substring from the first opening brace to the last
closing brace (the greedy regex match) and parses that; when the span is
absent or unparseable it degrades to the empty result with a parse-error
marker rather than failing. (It does not locate the first well-formed JSON
object: see the counterexample.) -/
theorem C8_parse_boundary (raw : String) (preC midC postC : List Char)
    (hdirect : jsonParse raw = none)
    (hdecomp : raw.toList = preC ++ '\x7b' :: (midC ++ '\x7d' :: postC))
    (hpre : ∀ c ∈ preC, ¬ c = '\x7b')
    (hpost : ∀ c ∈ postC, ¬ c = '\x7d') :
    greedySpan raw = some (String.mk ('\x7b' :: (midC ++ ['\x7d']))) ∧
    (∀ v, jsonParse (String.mk ('\x7b' :: (midC ++ ['\x7d']))) = some v →
      parseLLMContent raw = (v, none)) ∧
    (jsonParse (String.mk ('\x7b' :: (midC ++ ['\x7d']))) = none →
      parseLLMContent raw = (emptyJ, some "json-decode-error")) ∧
    (∀ raw2 : String, jsonParse raw2 = none → greedySpan raw2 = none →
      parseLLMContent raw2 = (emptyJ, some "no-json-object-found")) := by
  have hspan : greedySpan raw = some (String.mk ('\x7b' :: (midC ++ ['\x7d']))) := by
    rw [greedySpan, hdecomp, afterFirstBrace_append preC _ hpre]
    simp only [upToLastBrace_eq midC postC hpost]
  refine ⟨hspan, ?_, ?_, ?_⟩
  · intro v hv
    simp only [parseLLMContent, hdirect, hspan, hv]
  · intro hv
    simp only [parseLLMContent, hdirect, hspan, hv]
  · intro raw2 h1 h2
    simp only [parseLLMContent, h1, h2]

/-- Counterexample to C8 as stated: the response contains the well-formed
JSON object `\x7b"a": 1\x7d` as a substring, but the boundary parses the
greedy first-brace-to-last-brace span, fails, and returns the empty result
with a parse-error marker instead of that object. -/
theorem C8_counterexample :
    ("x\x7b\"a\": 1\x7dy\x7d" : String) = "x" ++ "\x7b\"a\": 1\x7d" ++ "y\x7d" ∧
    jsonParse "\x7b\"a\": 1\x7d" = some (JVal.jobj [("a", JVal.jnum "1")]) ∧
    (parseLLMContent "x\x7b\"a\": 1\x7dy\x7d").2 = some "json-decode-error" ∧
    (parseLLMContent "x\x7b\"a\": 1\x7dy\x7d").1 = emptyJ :=
  ⟨rfl, rfl, rfl, rfl⟩

/-- Witness for C8 (amended) at a concrete wrapped response. -/
theorem C8_witness :
    jsonParse "a\x7b\x7d" = none ∧
    ("a\x7b\x7d" : String).toList = ['a'] ++ '\x7b' :: ([] ++ '\x7d' :: []) ∧
    parseLLMContent "a\x7b\x7d" = (JVal.jobj [], none) :=
  ⟨rfl, rfl,
    (C8_parse_boundary "a\x7b\x7d" ['a'] [] [] rfl rfl
      (by decide) (by decide)).2.1 (JVal.jobj []) rfl⟩

end PS1

namespace PS1

/-! ## Orchestrator (run_narrative.py `generate_narrative`, lines 175-221) -/

/-- Field extraction from the parsed response: `out.get(key, default)` with
the types the downstream code expects (missing or mistyped fields become
the empty string / empty list). -/
def jObjLookup (v : JVal) (k : String) : Option JVal :=
  match v with
  | .jobj fs => (fs.find? (fun p => p.1 == k)).map (fun p => p.2)
  | _ => none

def jStrField (v : JVal) (k : String) : String :=
  match jObjLookup v k with
  | some (.jstr s) => s
  | _ => ""

def jStrListField (v : JVal) (k : String) : List String :=
  match jObjLookup v k with
  | some (.jarr xs) =>
    xs.filterMap (fun x => match x with | .jstr s => some s | _ => none)
  | _ => []

def toLLMOut (p : JVal × Option String) : LLMOut :=
  { narrative := jStrField p.1 "narrative"
    citationsUsed := jStrListField p.1 "citationsUsed"
    tokensUsed := jStrListField p.1 "tokensUsed"
    parseErr := p.2 }

/-- The final result record (the `__`-prefixed diagnostic keys become
fields; `issues` is `[]` when the verdict is valid). -/
structure GenResult where
  narrative : String
  citationsUsed : List String
  tokensUsed : List String
  ok : Bool
  issues : List String
  activatedTokens : List String
  allowedTokens : List String
  providedIds : List String
  isFallback : Bool

/-- The fixed fallback response of lines 186-197. -/
def fallbackResult : GenResult :=
  { narrative := "No part of the PlayStation SDK vocabulary can be used to describe this event. The input does not map to any known SDK concepts or tokens."
    citationsUsed := []
    tokensUsed := []
    ok := true
    issues := []
    activatedTokens := []
    allowedTokens := []
    providedIds := []
    isFallback := true }

/-- `generate_narrative(event_text)`: interpret, guard, expand, select,
generate (the service response is the `rawResponse` parameter; parsing and
the citation guardrail happen in `ask_lmstudio`), lint. `none` models a
diverging requires-closure. -/
def generateNarrative (rel : List (String × List String)) (nm : NeutralMap)
    (symbols : Symbols) (passages : List Passage) (fuel : Nat)
    (rawResponse : String) (text : String) : Option GenResult :=
  let interp := interpretEvent nm symbols text
  if interp.bag = [] ∨ interp.unrep.length = (tokenizeText text).length then
    some fallbackResult
  else
    match expandWithRequires rel fuel interp.bag with
    | none => none
    | some allowed =>
      match selectPassagesEventMinimal rel passages fuel interp.bag 4 with
      | none => none
      | some quotes =>
        let providedIds := quotes.map Prod.fst
        let out := repairOutput (toLLMOut (parseLLMContent rawResponse)) providedIds
        let lr := lintOutput out allowed providedIds interp.unrep
        some { narrative := out.narrative
               citationsUsed := out.citationsUsed
               tokensUsed := out.tokensUsed
               ok := lr.1
               issues := lr.2
               activatedTokens := interp.bag
               allowedTokens := allowed
               providedIds := providedIds
               isFallback := false }

/-- Claim C6: when interpretation activates no symbol, or the
unrepresentable count equals the raw token count, the orchestrator returns
the fixed fallback — empty citations, empty tokens, valid verdict — for
every relation graph, corpus, fuel and service response, i.e. without
running the expand, select, generate, or lint stages. -/
theorem C6_fallback (nm : NeutralMap) (symbols : Symbols) (text : String)
    (h : (interpretEvent nm symbols text).bag = [] ∨
      (interpretEvent nm symbols text).unrep.length = (tokenizeText text).length) :
    ∀ rel passages fuel rawResponse,
      generateNarrative rel nm symbols passages fuel rawResponse text =
        some fallbackResult ∧
      fallbackResult.citationsUsed = [] ∧ fallbackResult.tokensUsed = [] ∧
      fallbackResult.ok = true ∧ fallbackResult.isFallback = true := by
  intro rel passages fuel raw
  refine ⟨?_, rfl, rfl, rfl, rfl⟩
  simp only [generateNarrative]
  rw [if_pos h]

/-- Witness for C6: text with no lexicon entry takes the fallback path. -/
theorem C6_witness :
    ((interpretEvent ⟨[], []⟩ sym0 "hello").bag = [] ∨
      (interpretEvent ⟨[], []⟩ sym0 "hello").unrep.length =
        (tokenizeText "hello").length) ∧
    generateNarrative [] ⟨[], []⟩ sym0 [] 3 "resp" "hello" = some fallbackResult :=
  ⟨Or.inl rfl,
    (C6_fallback ⟨[], []⟩ sym0 "hello" (Or.inl rfl) [] [] 3 "resp").1⟩

end PS1
